import Mathlib

/-!
Verification of the botdocs RAG core: chunker, incremental vector-database
builder, cosine-similarity search, and source formatting.

JavaScript strings are modelled as `List Char`; JS numbers used for vector
arithmetic are modelled as real numbers; `Math.ceil(n/4)` on string lengths
is modelled as exact natural-number arithmetic.
-/

namespace Botdocs

/-- JS strings, modelled as lists of characters. -/
abbrev Str := List Char

/-- The whitespace class used by JS `trim` and `\s` (ASCII part plus NBSP/BOM). -/
def isJsSpace (c : Char) : Bool :=
  c = ' ' || c = '\t' || c = '\n' || c = '\r' ||
  c = Char.ofNat 11 || c = Char.ofNat 12 || c = Char.ofNat 0xa0 || c = Char.ofNat 0xfeff

/-- JS `String.prototype.trim`: strip leading and trailing whitespace. -/
def trimJs (s : Str) : Str :=
  ((s.dropWhile isJsSpace).reverse.dropWhile isJsSpace).reverse

/-- JS `content.split('\n')`. -/
def splitLines (s : Str) : List Str :=
  s.splitOn '\n'

/-- JS `lines.join('\n')`. -/
def joinLines : List Str → Str
  | [] => []
  | [l] => l
  | l :: ls => l ++ '\n' :: joinLines ls

/-- Does `s` start with the three-character sequence `pre`?  (JS `startsWith`.) -/
def leadsWith (pre s : Str) : Bool :=
  match pre, s with
  | [], _ => true
  | _ :: _, [] => false
  | p :: ps, c :: cs => p = c && leadsWith ps cs

/-- A line opening or closing a fenced code block: its trimmed content
starts with three backticks (`line.trim().startsWith('```')`). -/
def fenceLine (line : Str) : Bool :=
  leadsWith ['`', '`', '`'] (trimJs line)

/-- Token estimate: `Math.ceil(text.length / 4)`. -/
def estimateTokens (s : Str) : Nat :=
  (s.length + 3) / 4

/-- The character class of the regex `.` (anything but line terminators). -/
def dotChar (c : Char) : Bool :=
  !(c = '\n' || c = '\r' || c = Char.ofNat 0x2028 || c = Char.ofNat 0x2029)

/-- A word character for the regex class `\w`. -/
def isWordChar (c : Char) : Bool :=
  ('a' ≤ c && c ≤ 'z') || ('A' ≤ c && c ≤ 'Z') || ('0' ≤ c && c ≤ '9') || c = '_'

/-- Matching of `line.match(/^(#{1,3})\s+(.+)$/)`, returning capture group 2.
The `\s+` is greedy with backtracking and `.` excludes line terminators, so the
capture is the rest after the whitespace run when that rest is nonempty (and
free of line terminators), and otherwise the final whitespace character. -/
def headingCapture (line : Str) : Option Str :=
  let n := (line.takeWhile (· = '#')).length
  if 1 ≤ n && n ≤ 3 then
    let rest := line.drop n
    let w := rest.takeWhile isJsSpace
    let r := rest.drop w.length
    if w.length = 0 then none
    else if r ≠ [] then
      if r.all dotChar then some r else none
    else
      match w.getLast? with
      | some c => if 2 ≤ w.length && dotChar c then some [c] else none
      | none => none
  else none

/-- Collapse runs of two or more hyphens to a single hyphen
(the regex replace `/\-\-+/g → '-'`). -/
def collapseHyphens : Str → Str
  | [] => []
  | [c] => [c]
  | c1 :: c2 :: rest =>
    if c1 = '-' && c2 = '-' then collapseHyphens (c2 :: rest)
    else c1 :: collapseHyphens (c2 :: rest)

/-- `Chunker.slugify`: lowercase, trim, whitespace/plus to hyphen, strip
non-word characters, collapse repeated hyphens, strip edge hyphens. -/
def slugify (text : Str) : Str :=
  let s := text.map Char.toLower
  let s := trimJs s
  let s := s.map (fun c => if isJsSpace c || c = '+' then '-' else c)
  let s := s.filter (fun c => isWordChar c || c = '-')
  let s := collapseHyphens s
  let s := s.dropWhile (· = '-')
  (s.reverse.dropWhile (· = '-')).reverse

/-- `ChunkMetadata` from `src/types/vector-db.ts`. -/
structure ChunkMetadata where
  sourceFile : Str
  title : Str
  heading : Option Str
  headingId : Option Str
  url : Str
  startLine : Option Nat
  endLine : Option Nat
  fileHash : Option Str
deriving DecidableEq

/-- A text chunk produced by the chunker. -/
structure TextChunk where
  text : Str
  metadata : ChunkMetadata
deriving DecidableEq

/-- The part of `ProcessedDocument` consumed by the core (`metadata.title`
may be absent or empty, both falsy in JS). -/
structure ProcessedDocument where
  relativePath : Str
  content : Str
  title : Option Str
  url : Str
deriving DecidableEq

/-- Chunker options. -/
structure ChunkerOptions where
  maxChunkSize : Nat
  chunkOverlap : Nat
deriving DecidableEq

/-- The `Chunker` constructor: `options.maxChunkSize || 500` — a missing or
zero (falsy) value becomes the default. -/
def mkChunkerOptions (maxChunkSize chunkOverlap : Option Nat) : ChunkerOptions :=
  { maxChunkSize := match maxChunkSize with
      | some n => if n = 0 then 500 else n
      | none => 500
    chunkOverlap := match chunkOverlap with
      | some n => if n = 0 then 50 else n
      | none => 50 }

/-- `Chunker.createChunk`. -/
def createChunk (text : Str) (doc : ProcessedDocument) (heading : Option Str)
    (fileHash : Option Str) : TextChunk :=
  { text := trimJs text
    metadata :=
      { sourceFile := doc.relativePath
        title := match doc.title with
          | some t => if t = [] then "Untitled".data else t
          | none => "Untitled".data
        heading := heading
        headingId := heading.map slugify
        url := doc.url
        startLine := none
        endLine := none
        fileHash := fileHash } }

/-- Backward walk of `Chunker.getOverlapLines`: accumulate whole lines from the
end while the running token count stays within the target. -/
def getOverlapLinesAux (rev : List Str) (target : Nat) (tokenCount : Nat)
    (acc : List Str) : List Str :=
  match rev with
  | [] => acc
  | l :: rest =>
    let lt := estimateTokens l
    if tokenCount + lt > target then acc
    else getOverlapLinesAux rest target (tokenCount + lt) (l :: acc)

/-- `Chunker.getOverlapLines`. -/
def getOverlapLines (lines : List Str) (targetTokens : Nat) : List Str :=
  getOverlapLinesAux lines.reverse targetTokens 0 []

/-- Loop state of `Chunker.chunkDocument`. -/
structure ChunkState where
  chunks : List TextChunk
  currentChunk : List Str
  currentHeading : Option Str
  inCodeBlock : Bool
  codeBlockLines : List Str
deriving DecidableEq

/-- One iteration of the line loop in `Chunker.chunkDocument`. -/
def chunkStep (opts : ChunkerOptions) (doc : ProcessedDocument)
    (fileHash : Option Str) (st : ChunkState) (line : Str) : ChunkState :=
  if fenceLine line then
    if !st.inCodeBlock then
      { st with inCodeBlock := true, codeBlockLines := [line] }
    else
      { st with inCodeBlock := false,
                currentChunk := st.currentChunk ++ (st.codeBlockLines ++ [line]),
                codeBlockLines := [] }
  else if st.inCodeBlock then
    { st with codeBlockLines := st.codeBlockLines ++ [line] }
  else
    match headingCapture line with
    | some cap =>
      let st' :=
        if st.currentChunk ≠ [] then
          { st with chunks := st.chunks ++
              [createChunk (joinLines st.currentChunk) doc st.currentHeading fileHash] }
        else st
      { st' with currentHeading := some cap, currentChunk := [line] }
    | none =>
      let cc := st.currentChunk ++ [line]
      let tokenCount := estimateTokens (joinLines cc)
      if tokenCount ≥ opts.maxChunkSize then
        let flushed := st.chunks ++ [createChunk (joinLines cc) doc st.currentHeading fileHash]
        { st with chunks := flushed, currentChunk := getOverlapLines cc opts.chunkOverlap }
      else
        { st with currentChunk := cc }

/-- `Chunker.chunkDocument`: line loop, final flush, and the filter dropping
chunks whose trimmed text is empty. -/
def chunkDocument (opts : ChunkerOptions) (doc : ProcessedDocument)
    (fileHash : Option Str) : List TextChunk :=
  let lines := splitLines doc.content
  let st := lines.foldl (chunkStep opts doc fileHash) ⟨[], [], none, false, []⟩
  let st' :=
    if st.currentChunk ≠ [] then
      { st with chunks := st.chunks ++
          [createChunk (joinLines st.currentChunk) doc st.currentHeading fileHash] }
    else st
  st'.chunks.filter (fun c => (trimJs c.text).length > 0)

/-- An insertion-ordered map as used for JS `Map` (`set` replaces in place,
iteration follows first insertion order). -/
def mapSet {β : Type _} (m : List (Str × β)) (k : Str) (v : β) : List (Str × β) :=
  if m.any (fun p => p.1 == k) then
    m.map (fun p => if p.1 == k then (k, v) else p)
  else m ++ [(k, v)]

/-- JS `Map.get`. -/
def mapGet {β : Type _} (m : List (Str × β)) (k : Str) : Option β :=
  (m.find? (fun p => p.1 == k)).map (·.2)

/-- `Chunker.chunkDocuments`: chunk each document, passing it the file hash
looked up by its relative path. -/
def chunkDocuments (opts : ChunkerOptions) (docs : List ProcessedDocument)
    (fileHashes : Option (List (Str × Str))) : List TextChunk :=
  docs.flatMap (fun d =>
    chunkDocument opts d (fileHashes.bind (fun m => mapGet m d.relativePath)))

/-! ### MD5 (`createHash('md5')`), over naturals reduced mod `2^32` -/

/-- Reduce to 32 bits. -/
def mask32 (n : Nat) : Nat := n % 4294967296

/-- 32-bit left rotation. -/
def rotl32 (x s : Nat) : Nat :=
  mask32 ((mask32 x <<< s) ||| (mask32 x >>> (32 - s)))

/-- UTF-8 encoding of one character (Node digests strings as UTF-8). -/
def utf8EncodeChar (c : Char) : List Nat :=
  let n := c.toNat
  if n < 0x80 then [n]
  else if n < 0x800 then [0xc0 ||| (n >>> 6), 0x80 ||| (n &&& 0x3f)]
  else if n < 0x10000 then
    [0xe0 ||| (n >>> 12), 0x80 ||| ((n >>> 6) &&& 0x3f), 0x80 ||| (n &&& 0x3f)]
  else
    [0xf0 ||| (n >>> 18), 0x80 ||| ((n >>> 12) &&& 0x3f),
     0x80 ||| ((n >>> 6) &&& 0x3f), 0x80 ||| (n &&& 0x3f)]

/-- UTF-8 encode a string to bytes. -/
def utf8Encode (s : Str) : List Nat := s.flatMap utf8EncodeChar

/-- The 64 MD5 sine-derived round constants. -/
def md5K : List Nat :=
  [0xd76aa478, 0xe8c7b756, 0x242070db, 0xc1bdceee,
   0xf57c0faf, 0x4787c62a, 0xa8304613, 0xfd469501,
   0x698098d8, 0x8b44f7af, 0xffff5bb1, 0x895cd7be,
   0x6b901122, 0xfd987193, 0xa679438e, 0x49b40821,
   0xf61e2562, 0xc040b340, 0x265e5a51, 0xe9b6c7aa,
   0xd62f105d, 0x02441453, 0xd8a1e681, 0xe7d3fbc8,
   0x21e1cde6, 0xc33707d6, 0xf4d50d87, 0x455a14ed,
   0xa9e3e905, 0xfcefa3f8, 0x676f02d9, 0x8d2a4c8a,
   0xfffa3942, 0x8771f681, 0x6d9d6122, 0xfde5380c,
   0xa4beea44, 0x4bdecfa9, 0xf6bb4b60, 0xbebfbc70,
   0x289b7ec6, 0xeaa127fa, 0xd4ef3085, 0x04881d05,
   0xd9d4d039, 0xe6db99e5, 0x1fa27cf8, 0xc4ac5665,
   0xf4292244, 0x432aff97, 0xab9423a7, 0xfc93a039,
   0x655b59c3, 0x8f0ccc92, 0xffeff47d, 0x85845dd1,
   0x6fa87e4f, 0xfe2ce6e0, 0xa3014314, 0x4e0811a1,
   0xf7537e82, 0xbd3af235, 0x2ad7d2bb, 0xeb86d391]

/-- The MD5 per-round rotation amounts. -/
def md5S : List Nat :=
  [7, 12, 17, 22, 7, 12, 17, 22, 7, 12, 17, 22, 7, 12, 17, 22,
   5, 9, 14, 20, 5, 9, 14, 20, 5, 9, 14, 20, 5, 9, 14, 20,
   4, 11, 16, 23, 4, 11, 16, 23, 4, 11, 16, 23, 4, 11, 16, 23,
   6, 10, 15, 21, 6, 10, 15, 21, 6, 10, 15, 21, 6, 10, 15, 21]

/-- MD5 nonlinear function for operation `i`. -/
def md5F (i b c d : Nat) : Nat :=
  if i < 16 then (b &&& c) ||| ((b ^^^ 0xffffffff) &&& d)
  else if i < 32 then (d &&& b) ||| ((d ^^^ 0xffffffff) &&& c)
  else if i < 48 then b ^^^ c ^^^ d
  else c ^^^ (b ||| (d ^^^ 0xffffffff))

/-- MD5 message-word index for operation `i`. -/
def md5G (i : Nat) : Nat :=
  if i < 16 then i
  else if i < 32 then (5 * i + 1) % 16
  else if i < 48 then (3 * i + 5) % 16
  else (7 * i) % 16

/-- MD5 padding: append `0x80`, zeros to 56 mod 64, and the bit length as a
64-bit little-endian quantity. -/
def md5Pad (msg : List Nat) : List Nat :=
  let len := msg.length
  let zeros := (64 + 56 - ((len + 1) % 64)) % 64
  msg ++ [0x80] ++ List.replicate zeros 0 ++
    (List.range 8).map (fun i => ((len * 8) >>> (8 * i)) &&& 0xff)

/-- Assemble little-endian 32-bit words from bytes. -/
def toWords : List Nat → List Nat
  | b0 :: b1 :: b2 :: b3 :: rest =>
    (b0 + b1 * 256 + b2 * 65536 + b3 * 16777216) :: toWords rest
  | _ => []

/-- Split a byte list into 64-byte blocks (structural recursion on a fuel
bound so the definition reduces by computation). -/
def toBlocksAux : Nat → List Nat → List (List Nat)
  | 0, _ => []
  | _ + 1, [] => []
  | fuel + 1, l@(_ :: _) => l.take 64 :: toBlocksAux fuel (l.drop 64)

/-- Split a byte list into 64-byte blocks. -/
def toBlocks (l : List Nat) : List (List Nat) :=
  toBlocksAux l.length l

/-- One MD5 operation on the state `(a, b, c, d)`. -/
def md5Op (m : List Nat) (st : Nat × Nat × Nat × Nat) (i : Nat) : Nat × Nat × Nat × Nat :=
  let (a, b, c, d) := st
  let f := mask32 (md5F i b c d + a + (md5K.getD i 0) + (m.getD (md5G i) 0))
  (d, mask32 (b + rotl32 f (md5S.getD i 0)), b, c)

/-- Process one 64-byte block. -/
def md5Block (st : Nat × Nat × Nat × Nat) (block : List Nat) : Nat × Nat × Nat × Nat :=
  let m := toWords block
  let r := (List.range 64).foldl (md5Op m) st
  (mask32 (st.1 + r.1), mask32 (st.2.1 + r.2.1), mask32 (st.2.2.1 + r.2.2.1),
   mask32 (st.2.2.2 + r.2.2.2))

/-- Little-endian bytes of a 32-bit word. -/
def wordBytes (w : Nat) : List Nat :=
  [w &&& 0xff, (w >>> 8) &&& 0xff, (w >>> 16) &&& 0xff, (w >>> 24) &&& 0xff]

/-- MD5 digest (16 bytes) of a byte list. -/
def md5Bytes (msg : List Nat) : List Nat :=
  let st := (toBlocks (md5Pad msg)).foldl md5Block
    (0x67452301, 0xefcdab89, 0x98badcfe, 0x10325476)
  wordBytes st.1 ++ wordBytes st.2.1 ++ wordBytes st.2.2.1 ++ wordBytes st.2.2.2

/-- Lower-case hex digit. -/
def hexDigit (n : Nat) : Char :=
  if n < 10 then Char.ofNat ('0'.toNat + n) else Char.ofNat ('a'.toNat + n - 10)

/-- `createHash('md5').update(s).digest('hex')`. -/
def md5Hex (s : Str) : Str :=
  (md5Bytes (utf8Encode s)).flatMap (fun b => [hexDigit (b / 16), hexDigit (b % 16)])

/-! ### Vector database builder (`VectorDBBuilder`, incremental build) -/

/-- `DocumentChunk` from `src/types/vector-db.ts`; the embedding scalar type
is a parameter (real numbers for search, any type for build-structure facts). -/
structure DocumentChunk (α : Type _) where
  id : Str
  text : Str
  embedding : List α
  metadata : ChunkMetadata
deriving DecidableEq

/-- `VectorDatabase` from `src/types/vector-db.ts`. -/
structure VectorDatabase (α : Type _) where
  version : Str
  model : Str
  dimension : Nat
  chunks : List (DocumentChunk α)
deriving DecidableEq

/-- Loop body of `VectorDBBuilder.buildCacheMap`: create the entry if absent,
then push the chunk onto its group. -/
def cacheStep {α} (cache : List (Str × List (DocumentChunk α)))
    (c : DocumentChunk α) : List (Str × List (DocumentChunk α)) :=
  let key := c.metadata.sourceFile
  match mapGet cache key with
  | some group => mapSet cache key (group ++ [c])
  | none => mapSet cache key [c]

/-- `VectorDBBuilder.buildCacheMap`: group the prior database's chunks by
`metadata.sourceFile`, preserving order, in an insertion-ordered map. -/
def buildCacheMap {α} (db : Option (VectorDatabase α)) :
    List (Str × List (DocumentChunk α)) :=
  match db with
  | none => []
  | some db => db.chunks.foldl cacheStep []

/-- `VectorDBBuilder.hashContent`: MD5 of the document's raw text. -/
def hashContent (content : Str) : Str := md5Hex content

/-- `VectorDBBuilder.generateChunkId`: MD5 of
`sourceFile ++ ":" ++ index ++ ":" ++ text.substring(0,100)`, truncated to 16
hex characters. -/
def generateChunkId (text sourceFile : Str) (index : Nat) : Str :=
  (md5Hex (sourceFile ++ ':' :: (Nat.repr index).data ++ ':' :: text.take 100)).take 16

/-- The change-detection test of `VectorDBBuilder.build`:
`cachedDocChunks && cachedDocChunks[0]?.metadata.fileHash === hash`. -/
def isUnchanged {α} (cache : List (Str × List (DocumentChunk α)))
    (d : ProcessedDocument) : Bool :=
  match mapGet cache d.relativePath with
  | some cached =>
    match cached.head? with
    | some c => c.metadata.fileHash == some (hashContent d.content)
    | none => false
  | none => false

/-- The hash loop of `VectorDBBuilder.build` step 2: a JS `Map` from each
document's `relativePath` to the MD5 of its content. -/
def fileHashesOf (docs : List ProcessedDocument) : List (Str × Str) :=
  docs.foldl (fun m d => mapSet m d.relativePath (hashContent d.content)) []

/-- `VectorDBBuilder.build`, modelled as a pure function of the document list
and the previously persisted database (`loadExistingDatabase` result).  The
embedder is a function `e` from text to vector (`embedBatch` preserves input
order); the second component counts the embedding calls made. -/
def build {α} (e : Str → List α) (modelName : Str) (dimension : Nat)
    (opts : ChunkerOptions) (docs : List ProcessedDocument)
    (existing : Option (VectorDatabase α)) : VectorDatabase α × Nat :=
  let cachedChunks := buildCacheMap existing
  let fileHashes := fileHashesOf docs
  let unchangedDocs := docs.filter (fun d => isUnchanged cachedChunks d)
  let changedDocs := docs.filter (fun d => !isUnchanged cachedChunks d)
  let reusedChunks := unchangedDocs.flatMap
    (fun d => (mapGet cachedChunks d.relativePath).getD [])
  let newPair : List (DocumentChunk α) × Nat :=
    if changedDocs.isEmpty then ([], 0)
    else
      let chunks := chunkDocuments opts changedDocs (some fileHashes)
      let texts := chunks.map (·.text)
      let embeddings := texts.map e
      (chunks.mapIdx (fun i c =>
        { id := generateChunkId c.text c.metadata.sourceFile i
          text := c.text
          embedding := embeddings.getD i []
          metadata := c.metadata }), texts.length)
  let db : VectorDatabase α :=
    { version := "1.0".data, model := modelName, dimension := dimension,
      chunks := reusedChunks ++ newPair.1 }
  (db, newPair.2)

/-! ### Helper lemmas about the JS `Map` model -/

/-- An empty cache classifies every document as changed. -/
theorem isUnchanged_nil {α} (d : ProcessedDocument) :
    isUnchanged (α := α) [] d = false := rfl

theorem mapGet_nil {β} (k : Str) : mapGet ([] : List (Str × β)) k = none := rfl

theorem mapGet_cons {β} (p : Str × β) (m : List (Str × β)) (k : Str) :
    mapGet (p :: m) k = if p.1 == k then some p.2 else mapGet m k := by
  unfold mapGet
  rw [List.find?_cons]
  cases h : p.1 == k <;> simp [h]

theorem mapSet_of_any {β} (m : List (Str × β)) (k : Str) (v : β)
    (h : m.any (fun p => p.1 == k) = true) :
    mapSet m k v = m.map (fun p => if p.1 == k then (k, v) else p) := by
  simp [mapSet, h]

theorem mapSet_of_not_any {β} (m : List (Str × β)) (k : Str) (v : β)
    (h : m.any (fun p => p.1 == k) = false) :
    mapSet m k v = m ++ [(k, v)] := by
  simp [mapSet, h]

theorem mapGet_append_single {β} (m : List (Str × β)) (k k' : Str) (v : β) :
    mapGet m k' = none →
    mapGet (m ++ [(k, v)]) k' = (if k == k' then some v else none) := by
  induction m with
  | nil =>
    intro _
    cases h : k == k' <;> simp [mapGet_cons, mapGet_nil, h]
  | cons p m ih =>
    intro hm
    rw [mapGet_cons] at hm
    rw [List.cons_append, mapGet_cons]
    cases h : p.1 == k'
    · rw [h] at hm
      simp only [Bool.false_eq_true, if_false] at hm ⊢
      exact ih hm
    · rw [h] at hm
      simp at hm

theorem mapGet_append_single_of_some {β} (m : List (Str × β)) (k k' : Str)
    (v w : β) (hm : mapGet m k' = some w) :
    mapGet (m ++ [(k, v)]) k' = some w := by
  induction m with
  | nil => simp [mapGet_nil] at hm
  | cons p m ih =>
    rw [mapGet_cons] at hm
    rw [List.cons_append, mapGet_cons]
    cases h : p.1 == k' <;> simp [h] at hm ⊢
    · exact ih hm
    · exact hm

theorem mapGet_eq_none_of_not_any {β} (m : List (Str × β)) (k : Str)
    (ha : m.any (fun p => p.1 == k) = false) : mapGet m k = none := by
  induction m with
  | nil => rfl
  | cons p m ih =>
    simp only [List.any_cons, Bool.or_eq_false_iff] at ha
    rw [mapGet_cons, if_neg (by simp [ha.1]), ih ha.2]

theorem mapGet_mapReplace {β} (m : List (Str × β)) (k k' : Str) (v : β)
    (hne : k' ≠ k) :
    mapGet (m.map (fun p => if p.1 == k then (k, v) else p)) k' = mapGet m k' := by
  induction m with
  | nil => rfl
  | cons p m ih =>
    rw [List.map_cons, mapGet_cons, mapGet_cons]
    cases hp : p.1 == k
    · simp only [hp, Bool.false_eq_true, if_false]
      cases hpk' : p.1 == k' <;> simp only [hpk', if_true, Bool.false_eq_true, if_false] <;>
        first
          | rfl
          | exact ih
    · have h1 : (((k, v) : Str × β).1 == k') = false := by
        simpa using fun h => hne h.symm
      have h2 : (p.1 == k') = false := by
        have hpk : p.1 = k := by simpa using hp
        simpa [hpk] using fun h => hne h.symm
      simp only [hp, if_true, h1, h2, Bool.false_eq_true, if_false]
      exact ih

theorem mapGet_mapReplace_self {β} (m : List (Str × β)) (k : Str) (v : β)
    (ha : m.any (fun p => p.1 == k) = true) :
    mapGet (m.map (fun p => if p.1 == k then (k, v) else p)) k = some v := by
  induction m with
  | nil => simp at ha
  | cons p m ih =>
    rw [List.map_cons, mapGet_cons]
    cases hp : p.1 == k
    · simp only [hp, Bool.false_eq_true, if_false]
      simp only [List.any_cons, hp, Bool.false_or] at ha
      exact ih ha
    · simp [hp]

/-- After `mapSet m k v`, looking up `k` yields `v`. -/
theorem mapGet_mapSet_self {β} (m : List (Str × β)) (k : Str) (v : β) :
    mapGet (mapSet m k v) k = some v := by
  cases ha : m.any (fun p => p.1 == k)
  · rw [mapSet_of_not_any _ _ _ ha,
      mapGet_append_single _ _ _ _ (mapGet_eq_none_of_not_any _ _ ha)]
    simp
  · rw [mapSet_of_any _ _ _ ha, mapGet_mapReplace_self _ _ _ ha]

/-- `mapSet` does not affect lookups of other keys. -/
theorem mapGet_mapSet_ne {β} (m : List (Str × β)) (k k' : Str) (v : β)
    (hne : k' ≠ k) :
    mapGet (mapSet m k v) k' = mapGet m k' := by
  cases ha : m.any (fun p => p.1 == k)
  · cases hm : mapGet m k' with
    | none =>
      rw [mapSet_of_not_any _ _ _ ha, mapGet_append_single _ _ _ _ hm,
        if_neg (show ¬((k == k') = true) by simpa using fun h => hne h.symm)]
    | some w =>
      rw [mapSet_of_not_any _ _ _ ha, mapGet_append_single_of_some _ _ _ _ _ hm]
  · rw [mapSet_of_any _ _ _ ha, mapGet_mapReplace _ _ _ _ hne]

/-! ### Chunk-size arithmetic (claim C5) -/

/-- Sum of per-line token estimates. -/
def sumEst (ls : List Str) : Nat := (ls.map estimateTokens).sum

theorem trimJs_length_le (s : Str) : (trimJs s).length ≤ s.length := by
  unfold trimJs
  calc ((s.dropWhile isJsSpace).reverse.dropWhile isJsSpace).reverse.length
      = ((s.dropWhile isJsSpace).reverse.dropWhile isJsSpace).length := by
        rw [List.length_reverse]
    _ ≤ (s.dropWhile isJsSpace).reverse.length := (List.dropWhile_sublist _).length_le
    _ = (s.dropWhile isJsSpace).length := by rw [List.length_reverse]
    _ ≤ s.length := (List.dropWhile_sublist _).length_le

theorem estimateTokens_trimJs_le (s : Str) :
    estimateTokens (trimJs s) ≤ estimateTokens s := by
  unfold estimateTokens
  have := trimJs_length_le s
  omega

theorem joinLines_append_single (cur : List Str) (l : Str) (h : cur ≠ []) :
    joinLines (cur ++ [l]) = joinLines cur ++ '\n' :: l := by
  induction cur with
  | nil => exact absurd rfl h
  | cons c cs ih =>
    cases cs with
    | nil => rfl
    | cons c' cs' =>
      have e1 : joinLines ((c :: c' :: cs') ++ [l]) =
          c ++ '\n' :: joinLines ((c' :: cs') ++ [l]) := rfl
      have e2 : joinLines (c :: c' :: cs') = c ++ '\n' :: joinLines (c' :: cs') := rfl
      rw [e1, e2, ih (by simp)]
      simp

theorem est_joinLines_append_single (cur : List Str) (l : Str) :
    estimateTokens (joinLines (cur ++ [l])) ≤
      estimateTokens (joinLines cur) + estimateTokens l + 1 := by
  cases hc : cur with
  | nil =>
    simp only [List.nil_append]
    have e1 : joinLines [l] = l := rfl
    have e2 : joinLines ([] : List Str) = [] := rfl
    rw [e1, e2]
    unfold estimateTokens
    simp only [List.length_nil]
    omega
  | cons c cs =>
    rw [← hc, joinLines_append_single cur l (by rw [hc]; simp)]
    unfold estimateTokens
    rw [List.length_append, List.length_cons]
    omega

/-- With every line nonempty, the token estimate of the joined text is at most
twice the sum of the per-line estimates. -/
theorem est_joinLines_le_two_sumEst (ls : List Str)
    (h : ∀ l ∈ ls, 1 ≤ l.length) :
    estimateTokens (joinLines ls) ≤ 2 * sumEst ls := by
  induction ls with
  | nil => decide
  | cons l ls ih =>
    cases ls with
    | nil =>
      show estimateTokens l ≤ 2 * sumEst [l]
      have h1 := h l (List.mem_cons_self _ _)
      unfold sumEst estimateTokens
      simp only [List.map_cons, List.map_nil, List.sum_cons, List.sum_nil]
      omega
    | cons l' ls' =>
      have hjoin : joinLines (l :: l' :: ls') = l ++ '\n' :: joinLines (l' :: ls') := rfl
      rw [hjoin]
      have ih' := ih (fun x hx => h x (List.mem_cons_of_mem _ hx))
      have h1 := h l (List.mem_cons_self _ _)
      have hsum : sumEst (l :: l' :: ls') = estimateTokens l + sumEst (l' :: ls') := by
        unfold sumEst
        simp
      rw [hsum]
      revert ih' h1
      unfold estimateTokens
      rw [List.length_append, List.length_cons]
      intro ih' h1
      omega

/-- The overlap walk keeps the running token count within the target. -/
theorem overlapAux_sumEst (target : Nat) :
    ∀ (rev : List Str) (tc : Nat) (acc : List Str),
      tc = sumEst acc → tc ≤ target →
      sumEst (getOverlapLinesAux rev target tc acc) ≤ target
  | [], tc, acc, heq, hle => by rw [getOverlapLinesAux, ← heq]; exact hle
  | l :: rest, tc, acc, heq, hle => by
    rw [getOverlapLinesAux]
    split
    · rw [← heq]; exact hle
    · rename_i hgt
      refine overlapAux_sumEst target rest (tc + estimateTokens l) (l :: acc) ?_ ?_
      · rw [heq]; unfold sumEst; simp; omega
      · omega

theorem getOverlapLines_sumEst (lines : List Str) (target : Nat) :
    sumEst (getOverlapLines lines target) ≤ target :=
  overlapAux_sumEst target lines.reverse 0 [] rfl (Nat.zero_le _)

/-- Lines produced by the overlap walk come from its inputs. -/
theorem overlapAux_mem (target : Nat) :
    ∀ (rev : List Str) (tc : Nat) (acc : List Str) (l : Str),
      l ∈ getOverlapLinesAux rev target tc acc → l ∈ rev ∨ l ∈ acc
  | [], _, _, l, h => Or.inr h
  | r :: rest, tc, acc, l, h => by
    rw [getOverlapLinesAux] at h
    split at h
    · exact Or.inr h
    · rcases overlapAux_mem target rest _ _ l h with h' | h'
      · exact Or.inl (List.mem_cons_of_mem _ h')
      · rcases List.mem_cons.mp h' with rfl | h''
        · exact Or.inl (List.mem_cons_self _ _)
        · exact Or.inr h''

theorem getOverlapLines_mem (lines : List Str) (target : Nat) (l : Str)
    (h : l ∈ getOverlapLines lines target) : l ∈ lines := by
  rcases overlapAux_mem target lines.reverse 0 [] l h with h' | h'
  · exact List.mem_reverse.mp h'
  · simp at h'

/-- Invariant of the size-bound argument: the fence machinery is inactive,
every emitted chunk is below twice the limit, the open buffer is strictly
below the limit, and the buffer holds well-formed lines. -/
def SizeInv (opts : ChunkerOptions) (st : ChunkState) : Prop :=
  st.inCodeBlock = false ∧
  (∀ c ∈ st.chunks, estimateTokens c.text < 2 * opts.maxChunkSize) ∧
  estimateTokens (joinLines st.currentChunk) < opts.maxChunkSize ∧
  (∀ l ∈ st.currentChunk, 1 ≤ l.length ∧ estimateTokens l < opts.maxChunkSize)

theorem chunkStep_sizeInv (opts : ChunkerOptions) (doc : ProcessedDocument)
    (fh : Option Str) (hover : 2 * opts.chunkOverlap < opts.maxChunkSize)
    (st : ChunkState) (line : Str) (hfence : fenceLine line = false)
    (hlen : 1 ≤ line.length) (hest : estimateTokens line < opts.maxChunkSize)
    (hinv : SizeInv opts st) : SizeInv opts (chunkStep opts doc fh st line) := by
  obtain ⟨hic, hchunks, hbuf, hlines⟩ := hinv
  have hmax1 : 1 ≤ opts.maxChunkSize := by omega
  unfold chunkStep
  rw [hfence, hic]
  simp only [Bool.false_eq_true, if_false]
  cases hh : headingCapture line with
  | some cap =>
    try dsimp only
    by_cases hcc : st.currentChunk ≠ []
    · rw [if_pos hcc]
      refine ⟨rfl, ?_, hest, ?_⟩
      · intro c hc
        rcases List.mem_append.mp hc with hc | hc
        · exact hchunks c hc
        · rcases List.mem_singleton.mp hc with rfl
          calc estimateTokens (createChunk (joinLines st.currentChunk) doc
                st.currentHeading fh).text
              ≤ estimateTokens (joinLines st.currentChunk) :=
                estimateTokens_trimJs_le _
            _ < 2 * opts.maxChunkSize := by omega
      · intro l hl
        rcases List.mem_singleton.mp hl with rfl
        exact ⟨hlen, hest⟩
    · rw [if_neg hcc]
      refine ⟨hic, hchunks, hest, ?_⟩
      intro l hl
      rcases List.mem_singleton.mp hl with rfl
      exact ⟨hlen, hest⟩
  | none =>
    try dsimp only
    by_cases hge : estimateTokens (joinLines (st.currentChunk ++ [line])) ≥
        opts.maxChunkSize
    · rw [if_pos hge]
      refine ⟨rfl, ?_, ?_, ?_⟩
      · intro c hc
        rcases List.mem_append.mp hc with hc | hc
        · exact hchunks c hc
        · rcases List.mem_singleton.mp hc with rfl
          calc estimateTokens (createChunk (joinLines (st.currentChunk ++ [line]))
                doc st.currentHeading fh).text
              ≤ estimateTokens (joinLines (st.currentChunk ++ [line])) :=
                estimateTokens_trimJs_le _
            _ ≤ estimateTokens (joinLines st.currentChunk) + estimateTokens line + 1 :=
                est_joinLines_append_single _ _
            _ < 2 * opts.maxChunkSize := by omega
      · have hsub : ∀ l ∈ getOverlapLines (st.currentChunk ++ [line])
            opts.chunkOverlap, 1 ≤ l.length := by
          intro l hl
          rcases List.mem_append.mp (getOverlapLines_mem _ _ _ hl) with hl' | hl'
          · exact (hlines l hl').1
          · rcases List.mem_singleton.mp hl' with rfl
            exact hlen
        calc estimateTokens (joinLines (getOverlapLines (st.currentChunk ++ [line])
              opts.chunkOverlap))
            ≤ 2 * sumEst (getOverlapLines (st.currentChunk ++ [line])
              opts.chunkOverlap) := est_joinLines_le_two_sumEst _ hsub
          _ ≤ 2 * opts.chunkOverlap :=
              Nat.mul_le_mul_left 2 (getOverlapLines_sumEst _ _)
          _ < opts.maxChunkSize := hover
      · intro l hl
        rcases List.mem_append.mp (getOverlapLines_mem _ _ _ hl) with hl' | hl'
        · exact hlines l hl'
        · rcases List.mem_singleton.mp hl' with rfl
          exact ⟨hlen, hest⟩
    · rw [if_neg hge]
      refine ⟨rfl, hchunks, by dsimp only; omega, ?_⟩
      intro l hl
      rcases List.mem_append.mp hl with hl' | hl'
      · exact hlines l hl'
      · rcases List.mem_singleton.mp hl' with rfl
        exact ⟨hlen, hest⟩

theorem foldl_sizeInv (opts : ChunkerOptions) (doc : ProcessedDocument)
    (fh : Option Str) (hover : 2 * opts.chunkOverlap < opts.maxChunkSize) :
    ∀ (ls : List Str) (st : ChunkState),
      (∀ l ∈ ls, fenceLine l = false ∧ 1 ≤ l.length ∧
        estimateTokens l < opts.maxChunkSize) →
      SizeInv opts st → SizeInv opts (ls.foldl (chunkStep opts doc fh) st)
  | [], _, _, hinv => hinv
  | l :: ls, st, hls, hinv => by
    rw [List.foldl_cons]
    obtain ⟨h1, h2, h3⟩ := hls l (List.mem_cons_self _ _)
    exact foldl_sizeInv opts doc fh hover ls _
      (fun l' hl' => hls l' (List.mem_cons_of_mem _ hl'))
      (chunkStep_sizeInv opts doc fh hover st l h1 h2 h3 hinv)

/-! ### Claim C5: chunk size bound -/

/-- The largest per-line token estimate of a text ("one line's worth"). -/
def maxLineEst (s : Str) : Nat :=
  ((splitLines s).map estimateTokens).foldr max 0

/-- A document consisting of one fenced code block of small lines. -/
def docFence : ProcessedDocument :=
  ⟨"f.md".data, "```\naaaaaaaa\nbbbbbbbb\ncccccccc\n```".data, none, "/f".data⟩

/-- C5 counterexample: with `maxChunkSize = 2`, the single emitted chunk is the
whole code block (token estimate 9); none of its lines has an estimate above
the limit, yet the estimate is not below `maxChunkSize` plus one line's worth
(even read generously as `1 + ` the largest line estimate).  Code blocks are
appended to the buffer without any size check, so the claimed bound fails for
chunks containing them. -/
theorem C5_counterexample :
    ¬ (∀ c ∈ chunkDocument ⟨2, 0⟩ docFence none,
        (¬ ∃ l ∈ splitLines c.text, 2 < estimateTokens l) →
        estimateTokens c.text < 2 + (1 + maxLineEst c.text)) := by
  decide

/-- C5 amended: for documents with no fence lines, no empty lines, and every
line's token estimate strictly below `maxChunkSize`, and with
`2 * chunkOverlap < maxChunkSize`, every emitted chunk's token estimate is
below `2 * maxChunkSize` — i.e. below `maxChunkSize` plus one line's worth,
every line being worth less than `maxChunkSize`.  (Chunks that close a fenced
code block or follow a large overlap window can exceed the spec's bound, as
the counterexample shows.) -/
theorem C5_amended_chunk_size_bound (opts : ChunkerOptions)
    (doc : ProcessedDocument) (fh : Option Str)
    (hover : 2 * opts.chunkOverlap < opts.maxChunkSize)
    (hlines : ∀ l ∈ splitLines doc.content, fenceLine l = false ∧ 1 ≤ l.length ∧
      estimateTokens l < opts.maxChunkSize) :
    ∀ c ∈ chunkDocument opts doc fh,
      estimateTokens c.text < 2 * opts.maxChunkSize := by
  intro c hc
  have hmax1 : 1 ≤ opts.maxChunkSize := by omega
  unfold chunkDocument at hc
  have hinv0 : SizeInv opts ⟨[], [], none, false, []⟩ := by
    refine ⟨rfl, by simp, ?_, by simp⟩
    show estimateTokens (joinLines []) < opts.maxChunkSize
    have h0 : estimateTokens (joinLines []) = 0 := rfl
    omega
  have hinv := foldl_sizeInv opts doc fh hover (splitLines doc.content) _ hlines hinv0
  have hc' := List.mem_of_mem_filter hc
  revert hc'
  split
  · intro hc'
    rcases List.mem_append.mp hc' with hc' | hc'
    · exact hinv.2.1 c hc'
    · rcases List.mem_singleton.mp hc' with rfl
      calc estimateTokens (createChunk
            (joinLines ((splitLines doc.content).foldl (chunkStep opts doc fh)
              ⟨[], [], none, false, []⟩).currentChunk) doc
            ((splitLines doc.content).foldl (chunkStep opts doc fh)
              ⟨[], [], none, false, []⟩).currentHeading fh).text
          ≤ estimateTokens (joinLines ((splitLines doc.content).foldl
              (chunkStep opts doc fh) ⟨[], [], none, false, []⟩).currentChunk) :=
            estimateTokens_trimJs_le _
        _ < opts.maxChunkSize := hinv.2.2.1
        _ ≤ 2 * opts.maxChunkSize := by omega
  · intro hc'
    exact hinv.2.1 c hc'

/-- A small heading-plus-text document satisfying the amended hypotheses. -/
def docHeadingSmall : ProcessedDocument :=
  ⟨"h.md".data, "# T\nhello".data, none, "/h".data⟩

/-- Witness for C5's amended claim at a concrete input. -/
theorem C5_witness :
    estimateTokens ((chunkDocument ⟨500, 50⟩ docHeadingSmall none).get
      ⟨0, by decide⟩).text < 2 * 500 :=
  C5_amended_chunk_size_bound ⟨500, 50⟩ docHeadingSmall none (by decide) (by decide) _
    (List.get_mem _ _ _)

/-! ### Claim C6: code-block atomicity -/

/-- The matched fence blocks of a line sequence, scanned with the same
open/close alternation as the chunker (`trim().startsWith('```')` toggles the
state); each block is the opening fence, the interior lines, and the closing
fence, in order.  An unterminated trailing block is not a matched block. -/
def docBlocksAux : Bool → List Str → List Str → List (List Str)
  | _, _, [] => []
  | false, acc, l :: ls =>
    if fenceLine l then docBlocksAux true [l] ls else docBlocksAux false acc ls
  | true, acc, l :: ls =>
    if fenceLine l then (acc ++ [l]) :: docBlocksAux false [] ls
    else docBlocksAux true (acc ++ [l]) ls

/-- The matched fence blocks of a document's lines. -/
def docBlocks (lines : List Str) : List (List Str) :=
  docBlocksAux false [] lines

/-- The block's lines appear contiguously and completely inside the chunk:
its text is the trim of a line sequence extending the block on both sides. -/
def InChunk (b : List Str) (c : TextChunk) : Prop :=
  ∃ pre post, trimJs (joinLines (pre ++ b ++ post)) = c.text

/-- The block is a contiguous segment of the open buffer, or already inside an
emitted chunk. -/
def SegOrEmitted (b : List Str) (st : ChunkState) : Prop :=
  (∃ pre post, st.currentChunk = pre ++ b ++ post) ∨ ∃ c ∈ st.chunks, InChunk b c

/-- The end-of-input flush of `chunkDocument` (before the empty-text filter). -/
def finalChunks (doc : ProcessedDocument) (fh : Option Str) (st : ChunkState) :
    List TextChunk :=
  if st.currentChunk ≠ [] then
    st.chunks ++ [createChunk (joinLines st.currentChunk) doc st.currentHeading fh]
  else st.chunks

theorem chunkStep_fence_open (opts : ChunkerOptions) (doc : ProcessedDocument)
    (fh : Option Str) (st : ChunkState) (l : Str) (hf : fenceLine l = true)
    (hic : st.inCodeBlock = false) :
    chunkStep opts doc fh st l = { st with inCodeBlock := true, codeBlockLines := [l] } := by
  unfold chunkStep
  rw [hf, hic]
  rfl

theorem chunkStep_fence_close (opts : ChunkerOptions) (doc : ProcessedDocument)
    (fh : Option Str) (st : ChunkState) (l : Str) (hf : fenceLine l = true)
    (hic : st.inCodeBlock = true) :
    chunkStep opts doc fh st l =
      { st with
          inCodeBlock := false
          currentChunk := st.currentChunk ++ (st.codeBlockLines ++ [l])
          codeBlockLines := [] } := by
  unfold chunkStep
  rw [hf, hic]
  rfl

theorem chunkStep_interior (opts : ChunkerOptions) (doc : ProcessedDocument)
    (fh : Option Str) (st : ChunkState) (l : Str) (hf : fenceLine l = false)
    (hic : st.inCodeBlock = true) :
    chunkStep opts doc fh st l =
      { st with codeBlockLines := st.codeBlockLines ++ [l] } := by
  unfold chunkStep
  rw [hf, hic]
  rfl

/-- Outside a code block, a non-fence line never touches the fence state. -/
theorem chunkStep_outside_fields (opts : ChunkerOptions) (doc : ProcessedDocument)
    (fh : Option Str) (st : ChunkState) (l : Str) (hf : fenceLine l = false)
    (hic : st.inCodeBlock = false) :
    (chunkStep opts doc fh st l).inCodeBlock = false ∧
    (chunkStep opts doc fh st l).codeBlockLines = st.codeBlockLines := by
  unfold chunkStep
  rw [hf, hic]
  simp only [Bool.false_eq_true, if_false]
  cases hh : headingCapture l with
  | some cap =>
    constructor <;> (try dsimp only) <;> split <;> first | rfl | exact hic
  | none =>
    constructor <;> (try dsimp only) <;> split <;> first | rfl | exact hic

/-- One loop iteration keeps a nonempty block segment-or-emitted. -/
theorem chunkStep_seg (opts : ChunkerOptions) (doc : ProcessedDocument)
    (fh : Option Str) (st : ChunkState) (l : Str) (b : List Str) (hb : b ≠ [])
    (h : SegOrEmitted b st) : SegOrEmitted b (chunkStep opts doc fh st l) := by
  cases hf : fenceLine l with
  | true =>
    cases hic : st.inCodeBlock with
    | false =>
      rw [chunkStep_fence_open opts doc fh st l hf hic]
      rcases h with ⟨pre, post, hseg⟩ | hem
      · exact Or.inl ⟨pre, post, hseg⟩
      · exact Or.inr hem
    | true =>
      rw [chunkStep_fence_close opts doc fh st l hf hic]
      rcases h with ⟨pre, post, hseg⟩ | hem
      · refine Or.inl ⟨pre, post ++ (st.codeBlockLines ++ [l]), ?_⟩
        show st.currentChunk ++ (st.codeBlockLines ++ [l]) =
          pre ++ b ++ (post ++ (st.codeBlockLines ++ [l]))
        rw [hseg]
        simp [List.append_assoc]
      · exact Or.inr hem
  | false =>
    cases hic : st.inCodeBlock with
    | true =>
      rw [chunkStep_interior opts doc fh st l hf hic]
      rcases h with ⟨pre, post, hseg⟩ | hem
      · exact Or.inl ⟨pre, post, hseg⟩
      · exact Or.inr hem
    | false =>
      unfold chunkStep
      rw [hf, hic]
      simp only [Bool.false_eq_true, if_false]
      cases hh : headingCapture l with
      | some cap =>
        try dsimp only
        by_cases hcc : st.currentChunk ≠ []
        · rw [if_pos hcc]
          rcases h with ⟨pre, post, hseg⟩ | ⟨c, hc, hin⟩
          · refine Or.inr ⟨createChunk (joinLines st.currentChunk) doc
              st.currentHeading fh, ?_, pre, post, by rw [hseg]; rfl⟩
            exact List.mem_append.mpr (Or.inr (List.mem_singleton.mpr rfl))
          · exact Or.inr ⟨c, List.mem_append.mpr (Or.inl hc), hin⟩
        · rw [if_neg hcc]
          rcases h with ⟨pre, post, hseg⟩ | ⟨c, hc, hin⟩
          · push_neg at hcc
            rw [hcc] at hseg
            have : b = [] := by
              have h12 := List.append_eq_nil.mp hseg.symm
              exact (List.append_eq_nil.mp h12.1).2
            exact absurd this hb
          · exact Or.inr ⟨c, hc, hin⟩
      | none =>
        try dsimp only
        by_cases hge : estimateTokens (joinLines (st.currentChunk ++ [l])) ≥
            opts.maxChunkSize
        · rw [if_pos hge]
          rcases h with ⟨pre, post, hseg⟩ | ⟨c, hc, hin⟩
          · refine Or.inr ⟨createChunk (joinLines (st.currentChunk ++ [l])) doc
              st.currentHeading fh, ?_, pre, post ++ [l], ?_⟩
            · exact List.mem_append.mpr (Or.inr (List.mem_singleton.mpr rfl))
            · show trimJs (joinLines (pre ++ b ++ (post ++ [l]))) =
                (createChunk (joinLines (st.currentChunk ++ [l])) doc
                  st.currentHeading fh).text
              rw [hseg]
              have : pre ++ b ++ (post ++ [l]) = pre ++ b ++ post ++ [l] := by
                simp [List.append_assoc]
              rw [this]
              rfl
          · exact Or.inr ⟨c, List.mem_append.mpr (Or.inl hc), hin⟩
        · rw [if_neg hge]
          rcases h with ⟨pre, post, hseg⟩ | ⟨c, hc, hin⟩
          · refine Or.inl ⟨pre, post ++ [l], ?_⟩
            show st.currentChunk ++ [l] = pre ++ b ++ (post ++ [l])
            rw [hseg]
            simp [List.append_assoc]
          · exact Or.inr ⟨c, hc, hin⟩

theorem foldl_seg (opts : ChunkerOptions) (doc : ProcessedDocument)
    (fh : Option Str) (b : List Str) (hb : b ≠ []) :
    ∀ (ls : List Str) (st : ChunkState), SegOrEmitted b st →
      SegOrEmitted b (ls.foldl (chunkStep opts doc fh) st)
  | [], _, h => h
  | l :: ls, st, h =>
    foldl_seg opts doc fh b hb ls _ (chunkStep_seg opts doc fh st l b hb h)

theorem final_seg (doc : ProcessedDocument) (fh : Option Str) (b : List Str)
    (hb : b ≠ []) (st : ChunkState) (h : SegOrEmitted b st) :
    ∃ c ∈ finalChunks doc fh st, InChunk b c := by
  unfold finalChunks
  rcases h with ⟨pre, post, hseg⟩ | ⟨c, hc, hin⟩
  · have hne : st.currentChunk ≠ [] := by
      rw [hseg]
      intro hnil
      have h12 := List.append_eq_nil.mp hnil
      exact hb (List.append_eq_nil.mp h12.1).2
    rw [if_pos hne]
    exact ⟨createChunk (joinLines st.currentChunk) doc st.currentHeading fh,
      List.mem_append.mpr (Or.inr (List.mem_singleton.mpr rfl)),
      pre, post, by rw [hseg]; rfl⟩
  · split
    · exact ⟨c, List.mem_append.mpr (Or.inl hc), hin⟩
    · exact ⟨c, hc, hin⟩

/-- Every matched block scanned from the remaining lines ends up inside one of
the final chunks. -/
theorem blocks_in_final (opts : ChunkerOptions) (doc : ProcessedDocument)
    (fh : Option Str) :
    ∀ (ls : List Str) (st : ChunkState),
      ∀ b ∈ docBlocksAux st.inCodeBlock st.codeBlockLines ls,
        ∃ c ∈ finalChunks doc fh (ls.foldl (chunkStep opts doc fh) st),
          InChunk b c := by
  intro ls
  induction ls with
  | nil =>
    intro st b hbmem
    rw [docBlocksAux] at hbmem
    · cases hbmem
  | cons l ls ih =>
    intro st b hbmem
    rw [List.foldl_cons]
    cases hf : fenceLine l with
    | true =>
      cases hic : st.inCodeBlock with
      | false =>
        rw [hic, docBlocksAux, hf, if_pos rfl] at hbmem
        have hst' := chunkStep_fence_open opts doc fh st l hf hic
        have h1 : (chunkStep opts doc fh st l).inCodeBlock = true := by rw [hst']
        have h2 : (chunkStep opts doc fh st l).codeBlockLines = [l] := by rw [hst']
        have := ih (chunkStep opts doc fh st l)
        rw [h1, h2] at this
        exact this b hbmem
      | true =>
        rw [hic, docBlocksAux, hf, if_pos rfl] at hbmem
        have hst' := chunkStep_fence_close opts doc fh st l hf hic
        have h1 : (chunkStep opts doc fh st l).inCodeBlock = false := by rw [hst']
        have h2 : (chunkStep opts doc fh st l).codeBlockLines = [] := by rw [hst']
        rcases List.mem_cons.mp hbmem with rfl | hbmem'
        · -- the block just completed: it is a segment of the new buffer
          have hb : st.codeBlockLines ++ [l] ≠ [] := by simp
          apply final_seg doc fh _ hb
          apply foldl_seg opts doc fh _ hb
          refine Or.inl ⟨st.currentChunk, [], ?_⟩
          rw [hst']
          simp
        · have := ih (chunkStep opts doc fh st l)
          rw [h1, h2] at this
          exact this b hbmem'
    | false =>
      cases hic : st.inCodeBlock with
      | true =>
        rw [hic, docBlocksAux, hf] at hbmem
        simp only [Bool.false_eq_true, if_false] at hbmem
        have hst' := chunkStep_interior opts doc fh st l hf hic
        have h1 : (chunkStep opts doc fh st l).inCodeBlock = true := by
          rw [hst']
          exact hic
        have h2 : (chunkStep opts doc fh st l).codeBlockLines =
            st.codeBlockLines ++ [l] := by rw [hst']
        have := ih (chunkStep opts doc fh st l)
        rw [h1, h2] at this
        exact this b hbmem
      | false =>
        rw [hic, docBlocksAux, hf] at hbmem
        simp only [Bool.false_eq_true, if_false] at hbmem
        obtain ⟨h1, h2⟩ := chunkStep_outside_fields opts doc fh st l hf hic
        have := ih (chunkStep opts doc fh st l)
        rw [h1, h2] at this
        exact this b hbmem

theorem trimJs_sublist (s : Str) : (trimJs s).Sublist s := by
  unfold trimJs
  have h1 : (s.dropWhile isJsSpace).Sublist s := List.dropWhile_sublist _
  have h2 : (((s.dropWhile isJsSpace).reverse.dropWhile isJsSpace)).Sublist
      (s.dropWhile isJsSpace).reverse := List.dropWhile_sublist _
  have h3 := h2.reverse
  rw [List.reverse_reverse] at h3
  exact h3.trans h1

theorem mem_of_mem_trimJs (ch : Char) (s : Str) (h : ch ∈ trimJs s) : ch ∈ s :=
  (trimJs_sublist s).mem h

theorem mem_trimJs (ch : Char) (s : Str) (hch : isJsSpace ch = false)
    (h : ch ∈ s) : ch ∈ trimJs s := by
  unfold trimJs
  have step : ∀ t : Str, ch ∈ t → ch ∈ t.dropWhile isJsSpace := by
    intro t ht
    have hsplit := List.takeWhile_append_dropWhile (p := isJsSpace) (l := t)
    rw [← hsplit] at ht
    rcases List.mem_append.mp ht with h' | h'
    · have := List.mem_takeWhile_imp h'
      rw [hch] at this
      cases this
    · exact h'
  rw [List.mem_reverse]
  exact step _ (List.mem_reverse.mpr (step _ h))

theorem fenceLine_backtick (l : Str) (h : fenceLine l = true) : '`' ∈ l := by
  unfold fenceLine at h
  cases htl : trimJs l with
  | nil =>
    rw [htl] at h
    cases h
  | cons c cs =>
    rw [htl] at h
    simp only [leadsWith, Bool.and_eq_true, decide_eq_true_eq] at h
    apply mem_of_mem_trimJs
    rw [htl, ← h.1]
    exact List.mem_cons_self _ _

theorem mem_joinLines (x : Char) : ∀ (ls : List Str) (l : Str), l ∈ ls → x ∈ l →
    x ∈ joinLines ls
  | [], _, hl, _ => by cases hl
  | [l0], l, hl, hx => by
    rcases List.mem_singleton.mp hl with rfl
    exact hx
  | l0 :: l1 :: ls, l, hl, hx => by
    have hj : joinLines (l0 :: l1 :: ls) = l0 ++ '\n' :: joinLines (l1 :: ls) := rfl
    rw [hj]
    rcases List.mem_cons.mp hl with rfl | hl'
    · exact List.mem_append.mpr (Or.inl hx)
    · exact List.mem_append.mpr (Or.inr
        (List.mem_cons_of_mem _ (mem_joinLines x (l1 :: ls) l hl' hx)))

/-- Every matched block contains a fence line (its closing fence). -/
theorem docBlocksAux_hasFence :
    ∀ (ls : List Str) (ic : Bool) (acc : List Str), ∀ b ∈ docBlocksAux ic acc ls,
      ∃ l ∈ b, fenceLine l = true
  | [], ic, acc, b, hb => by
    cases ic <;> simp only [docBlocksAux] at hb <;> cases hb
  | l :: ls, false, acc, b, hb => by
    simp only [docBlocksAux] at hb
    split at hb
    · exact docBlocksAux_hasFence ls true [l] b hb
    · exact docBlocksAux_hasFence ls false acc b hb
  | l :: ls, true, acc, b, hb => by
    simp only [docBlocksAux] at hb
    split at hb
    · rename_i hfl
      rcases List.mem_cons.mp hb with rfl | hb'
      · exact ⟨l, List.mem_append.mpr (Or.inr (List.mem_singleton.mpr rfl)), hfl⟩
      · exact docBlocksAux_hasFence ls false [] b hb'
    · exact docBlocksAux_hasFence ls true (acc ++ [l]) b hb

theorem chunkDocument_eq_finalChunks (opts : ChunkerOptions)
    (doc : ProcessedDocument) (fh : Option Str) :
    chunkDocument opts doc fh =
      (finalChunks doc fh ((splitLines doc.content).foldl (chunkStep opts doc fh)
        ⟨[], [], none, false, []⟩)).filter (fun c => (trimJs c.text).length > 0) := by
  unfold chunkDocument finalChunks
  dsimp only
  by_cases hcc : ((splitLines doc.content).foldl (chunkStep opts doc fh)
      ⟨[], [], none, false, []⟩).currentChunk ≠ []
  · rw [if_pos hcc, if_pos hcc]
  · rw [if_neg hcc, if_neg hcc]

/-! ### Claim C4: unterminated code fence at end of file -/

/-- C4: the spec claims that a document ending inside an open fenced code block
has the buffered fence lines flushed into the output.  The code instead leaves
them in `codeBlockLines`, which the end-of-input flush ignores: chunking the
two-line document "```\ncode" produces no chunks at all — the opening fence and
the following line are silently discarded. -/
theorem C4_unterminated_fence_lines_discarded :
    chunkDocument ⟨500, 50⟩
      ⟨"a.md".data, "```\ncode".data, none, "/a".data⟩ none = [] := by
  decide

/-! ### Claim C2: cache classification rule -/

/-- C2: `build` classifies a document as unchanged iff the cache map built from
the prior database has an entry for its `sourceFile` whose first chunk stores a
`fileHash` equal to the fresh MD5 of the document's raw text; in particular a
document with no cache entry is always classified as changed. -/
theorem C2_cache_classification_rule {α} (db : Option (VectorDatabase α))
    (d : ProcessedDocument) :
    (isUnchanged (buildCacheMap db) d = true ↔
      ∃ c cs, mapGet (buildCacheMap db) d.relativePath = some (c :: cs) ∧
        c.metadata.fileHash = some (hashContent d.content)) ∧
    (mapGet (buildCacheMap db) d.relativePath = none →
      isUnchanged (buildCacheMap db) d = false) := by
  constructor
  · rw [isUnchanged]
    cases hg : mapGet (buildCacheMap db) d.relativePath with
    | none => simp
    | some cached =>
      cases cached with
      | nil => simp
      | cons c cs =>
        simp only [List.head?_cons, beq_iff_eq, Option.some.injEq]
        constructor
        · intro h
          exact ⟨c, cs, rfl, h⟩
        · rintro ⟨c', cs', heq, hh⟩
          obtain ⟨rfl, rfl⟩ : c' = c ∧ cs' = cs := by
            constructor <;> [exact (List.cons.injEq .. ▸ heq).1.symm;
              exact (List.cons.injEq .. ▸ heq).2.symm]
          exact hh
  · intro hg
    rw [isUnchanged, hg]

/-- Witness for C2 at a concrete input: a document never indexed before
(empty prior cache) is classified as changed. -/
theorem C2_witness :
    mapGet (buildCacheMap (none : Option (VectorDatabase ℚ))) ("a.md".data) = none ∧
    isUnchanged (buildCacheMap (none : Option (VectorDatabase ℚ)))
      ⟨"a.md".data, "hello".data, none, "/a".data⟩ = false :=
  ⟨rfl, (C2_cache_classification_rule none
    ⟨"a.md".data, "hello".data, none, "/a".data⟩).2 rfl⟩

/-- The chunk list after one loop iteration is either unchanged or extended by
one `createChunk` of the processed document. -/
theorem chunkStep_chunks_cases (opts : ChunkerOptions) (doc : ProcessedDocument)
    (fh : Option Str) (st : ChunkState) (line : Str) :
    (chunkStep opts doc fh st line).chunks = st.chunks ∨
    ∃ text heading, (chunkStep opts doc fh st line).chunks =
      st.chunks ++ [createChunk text doc heading fh] := by
  unfold chunkStep
  split
  · split
    · left; rfl
    · left; rfl
  · split
    · left; rfl
    · split
      · dsimp only
        split
        · right; exact ⟨_, _, rfl⟩
        · left; rfl
      · dsimp only
        split
        · right; exact ⟨_, _, rfl⟩
        · left; rfl

/-- Every chunk emitted by `chunkStep` that was not already in the state is a
`createChunk` of the processed document. -/
theorem chunkStep_chunks_prop (opts : ChunkerOptions) (doc : ProcessedDocument)
    (fh : Option Str) (P : TextChunk → Prop)
    (hP : ∀ text heading, P (createChunk text doc heading fh))
    (st : ChunkState) (line : Str) (h : ∀ c ∈ st.chunks, P c) :
    ∀ c ∈ (chunkStep opts doc fh st line).chunks, P c := by
  rcases chunkStep_chunks_cases opts doc fh st line with heq | ⟨text, heading, heq⟩ <;>
    rw [heq]
  · exact h
  · intro c hc
    rcases List.mem_append.mp hc with hc | hc
    · exact h c hc
    · rcases List.mem_singleton.mp hc with rfl
      exact hP _ _

/-- The chunk-property invariant holds across the whole line loop. -/
theorem foldl_chunkStep_prop (opts : ChunkerOptions) (doc : ProcessedDocument)
    (fh : Option Str) (P : TextChunk → Prop)
    (hP : ∀ text heading, P (createChunk text doc heading fh)) :
    ∀ (lines : List Str) (st : ChunkState), (∀ c ∈ st.chunks, P c) →
      ∀ c ∈ (lines.foldl (chunkStep opts doc fh) st).chunks, P c
  | [], _, h => h
  | l :: ls, st, h =>
    foldl_chunkStep_prop opts doc fh P hP ls (chunkStep opts doc fh st l)
      (chunkStep_chunks_prop opts doc fh P hP st l h)

/-- Every chunk of `chunkDocument` is a `createChunk` of its document, hence
satisfies any property of such chunks. -/
theorem chunkDocument_prop (opts : ChunkerOptions) (doc : ProcessedDocument)
    (fh : Option Str) (P : TextChunk → Prop)
    (hP : ∀ text heading, P (createChunk text doc heading fh)) :
    ∀ c ∈ chunkDocument opts doc fh, P c := by
  intro c hc
  unfold chunkDocument at hc
  have hc' := List.mem_of_mem_filter hc
  have hfold := foldl_chunkStep_prop opts doc fh P hP (splitLines doc.content)
    ⟨[], [], none, false, []⟩ (by intro c h; simp at h)
  revert hc'
  split
  · intro hc'
    rcases List.mem_append.mp hc' with hc' | hc'
    · exact hfold c hc'
    · rcases List.mem_singleton.mp hc' with rfl
      exact hP _ _
  · intro hc'
    exact hfold c hc'

/-- Chunks of a document carry its `relativePath` as `sourceFile` and the
passed file hash. -/
theorem chunkDocument_sourceFile_fileHash (opts : ChunkerOptions)
    (doc : ProcessedDocument) (fh : Option Str) :
    ∀ c ∈ chunkDocument opts doc fh,
      c.metadata.sourceFile = doc.relativePath ∧ c.metadata.fileHash = fh :=
  chunkDocument_prop opts doc fh _ (fun _ _ => ⟨rfl, rfl⟩)

/-- Folding further documents into the hash map does not change keys none of
them owns. -/
theorem foldl_fileHash_get_of_not_mem (ds : List ProcessedDocument)
    (acc : List (Str × Str)) (k : Str) (h : ∀ d ∈ ds, d.relativePath ≠ k) :
    mapGet (ds.foldl (fun m d => mapSet m d.relativePath (hashContent d.content)) acc) k =
      mapGet acc k := by
  induction ds generalizing acc with
  | nil => rfl
  | cons d ds ih =>
    rw [List.foldl_cons, ih _ (fun d' hd' => h d' (List.mem_cons_of_mem _ hd')),
      mapGet_mapSet_ne _ _ _ _ (fun hk => h d (List.mem_cons_self _ _) hk.symm)]

theorem foldl_fileHash_get_mem (ds : List ProcessedDocument)
    (acc : List (Str × Str)) (hnd : (ds.map (·.relativePath)).Nodup)
    (d : ProcessedDocument) (hd : d ∈ ds) :
    mapGet (ds.foldl (fun m d => mapSet m d.relativePath (hashContent d.content)) acc)
      d.relativePath = some (hashContent d.content) := by
  induction ds generalizing acc with
  | nil => simp at hd
  | cons d0 ds ih =>
    rw [List.map_cons, List.nodup_cons] at hnd
    rcases List.mem_cons.mp hd with rfl | hd'
    · rw [List.foldl_cons,
        foldl_fileHash_get_of_not_mem _ _ _
          (fun d' hd' hk => hnd.1 (by rw [← hk]; exact List.mem_map_of_mem _ hd')),
        mapGet_mapSet_self]
    · rw [List.foldl_cons]
      exact ih _ hnd.2 hd'

/-- With pairwise-distinct document paths, the hash map sends each document's
path to the MD5 of its content. -/
theorem fileHashesOf_get (docs : List ProcessedDocument)
    (hnd : (docs.map (·.relativePath)).Nodup) (d : ProcessedDocument)
    (hd : d ∈ docs) :
    mapGet (fileHashesOf docs) d.relativePath = some (hashContent d.content) :=
  foldl_fileHash_get_mem docs [] hnd d hd

/-- Merge an already-grouped prefix with the chunks a further scan contributes
to one key (`none` encodes "no cache entry"). -/
def cacheJoin {α} : Option (List (DocumentChunk α)) → List (DocumentChunk α) →
    Option (List (DocumentChunk α))
  | none, [] => none
  | none, g => some g
  | some g0, g => some (g0 ++ g)

theorem foldl_cacheStep_get {α} (cs : List (DocumentChunk α))
    (acc : List (Str × List (DocumentChunk α))) (k : Str) :
    mapGet (cs.foldl cacheStep acc) k =
      cacheJoin (mapGet acc k) (cs.filter (fun c => c.metadata.sourceFile == k)) := by
  induction cs generalizing acc with
  | nil =>
    cases h : mapGet acc k <;> simp [cacheJoin, h]
  | cons c cs ih =>
    rw [List.foldl_cons, ih]
    simp only [cacheStep]
    cases hsf : c.metadata.sourceFile == k with
    | true =>
      have hks : c.metadata.sourceFile = k := by simpa using hsf
      simp only [List.filter_cons, hsf, if_true]
      rw [hks]
      cases hacc : mapGet acc k with
      | some g0 =>
        dsimp only
        rw [mapGet_mapSet_self]
        simp [cacheJoin, List.append_assoc]
      | none =>
        dsimp only
        rw [mapGet_mapSet_self]
        simp [cacheJoin]
    | false =>
      have hks : k ≠ c.metadata.sourceFile := fun hk => by simp [hk] at hsf
      simp only [List.filter_cons, hsf, Bool.false_eq_true, if_false]
      cases hacc : mapGet acc c.metadata.sourceFile <;>
        · dsimp only
          rw [mapGet_mapSet_ne _ _ _ _ hks]

/-- The cache map sends a key to the ordered list of the database's chunks
whose `sourceFile` is that key (and has no entry when there are none). -/
theorem buildCacheMap_get {α} (db : VectorDatabase α) (k : Str) :
    mapGet (buildCacheMap (some db)) k =
      cacheJoin none (db.chunks.filter (fun c => c.metadata.sourceFile == k)) := by
  rw [buildCacheMap, foldl_cacheStep_get]
  rfl

/-- An index-dependent conversion that preserves metadata leaves the list of
metadata unchanged. -/
theorem map_metadata_mapIdx {α} (l : List TextChunk)
    (f : ℕ → TextChunk → DocumentChunk α)
    (hf : ∀ i c, (f i c).metadata = c.metadata) :
    (l.mapIdx f).map (·.metadata) = l.map (·.metadata) := by
  rw [List.mapIdx_eq_enum_map, List.map_map]
  calc (l.enum.map fun p => ((Function.uncurry f) p).metadata)
      = l.enum.map (fun p => p.2.metadata) :=
        List.map_congr_left (fun p _ => hf p.1 p.2)
    _ = (l.enum.map Prod.snd).map (·.metadata) := by rw [List.map_map]; rfl
    _ = l.map (·.metadata) := by rw [List.enum_map_snd]

/-- The indexed conversion of a concatenation of per-document chunk lists
splits into per-document blocks with the same metadata lists. -/
theorem mapIdx_flatMap_blocks {α} (ds : List ProcessedDocument)
    (g : ProcessedDocument → List TextChunk) :
    ∀ (f : ℕ → TextChunk → DocumentChunk α), (∀ i c, (f i c).metadata = c.metadata) →
    ∃ blocks : List (List (DocumentChunk α)),
      (ds.flatMap g).mapIdx f = blocks.flatten ∧
      List.Forall₂ (fun d B => B.map (·.metadata) = (g d).map (·.metadata)) ds blocks := by
  induction ds with
  | nil => exact fun f hf => ⟨[], by simp, List.Forall₂.nil⟩
  | cons d ds ih =>
    intro f hf
    rw [List.flatMap_cons, List.mapIdx_append]
    obtain ⟨blocks, hb1, hb2⟩ := ih (fun i => f (i + (g d).length)) (fun i c => hf _ c)
    exact ⟨(g d).mapIdx f :: blocks, by rw [List.flatten_cons, hb1],
      List.Forall₂.cons (map_metadata_mapIdx _ _ hf) hb2⟩

/-- All keys occurring in the flattened blocks are keys of the documents. -/
theorem flatten_keys_mem {α} (ds : List ProcessedDocument)
    (blocks : List (List (DocumentChunk α)))
    (hb : List.Forall₂ (fun d B => ∀ x ∈ B, x.metadata.sourceFile = d.relativePath)
      ds blocks) :
    ∀ x ∈ blocks.flatten, x.metadata.sourceFile ∈ ds.map (·.relativePath) := by
  induction hb with
  | nil => simp
  | cons hdB _ ih =>
    intro x hx
    rw [List.flatten_cons] at hx
    rcases List.mem_append.mp hx with hx | hx
    · rw [List.map_cons, hdB x hx]
      exact List.mem_cons_self _ _
    · exact List.mem_cons_of_mem _ (ih x hx)

/-- With pairwise-distinct keys, filtering the flattened blocks by each
document's key recovers exactly that document's block. -/
theorem blocks_filter {α} (ds : List ProcessedDocument)
    (blocks : List (List (DocumentChunk α)))
    (hb : List.Forall₂ (fun d B => ∀ x ∈ B, x.metadata.sourceFile = d.relativePath)
      ds blocks) :
    ∀ pre : List (DocumentChunk α),
      (ds.map (·.relativePath)).Nodup →
      (∀ x ∈ pre, x.metadata.sourceFile ∉ ds.map (·.relativePath)) →
      List.Forall₂ (fun d B =>
        (pre ++ blocks.flatten).filter
          (fun x => x.metadata.sourceFile == d.relativePath) = B) ds blocks := by
  induction hb with
  | nil => exact fun _ _ _ => .nil
  | @cons d B ds' blocks' hdB htail ih =>
    intro pre hnd hpre
    rw [List.map_cons, List.nodup_cons] at hnd
    constructor
    · rw [List.flatten_cons, ← List.append_assoc, List.filter_append, List.filter_append]
      have h1 : pre.filter (fun x => x.metadata.sourceFile == d.relativePath) = [] := by
        apply List.filter_eq_nil_iff.mpr
        intro x hx
        simp only [beq_iff_eq]
        intro hk
        exact hpre x hx (by rw [hk]; exact List.mem_cons_self _ _)
      have h2 : B.filter (fun x => x.metadata.sourceFile == d.relativePath) = B := by
        apply List.filter_eq_self.mpr
        intro x hx
        simp [hdB x hx]
      have h3 : blocks'.flatten.filter
          (fun x => x.metadata.sourceFile == d.relativePath) = [] := by
        apply List.filter_eq_nil_iff.mpr
        intro x hx
        simp only [beq_iff_eq]
        intro hk
        exact hnd.1 (hk ▸ flatten_keys_mem ds' blocks' htail x hx)
      rw [h1, h2, h3, List.nil_append, List.append_nil]
    · have := ih (pre ++ B) hnd.2 (fun x hx => by
        rcases List.mem_append.mp hx with hx | hx
        · exact fun hm => hpre x hx (List.mem_cons_of_mem _ hm)
        · rw [hdB x hx]
          exact hnd.1)
      apply this.imp
      intro d' B' hfil
      rw [← hfil, List.flatten_cons, List.append_assoc]

/-- A `Forall₂` of function-value equalities means mapping gives the second
list. -/
theorem Forall₂_eq_map {γ δ} (f : γ → δ) :
    ∀ (l : List γ) (l' : List δ), List.Forall₂ (fun a b => f a = b) l l' →
      l.map f = l'
  | [], [], _ => rfl
  | _ :: _, _ :: _, List.Forall₂.cons h htail => by
    rw [List.map_cons, h, Forall₂_eq_map f _ _ htail]

/-- Dropping list elements whose image is empty does not change a `flatMap`. -/
theorem flatMap_filter_of_nil {γ δ} (l : List γ) (p : γ → Bool)
    (F : γ → List δ) (h : ∀ d ∈ l, p d = false → F d = []) :
    (l.filter p).flatMap F = l.flatMap F := by
  induction l with
  | nil => rfl
  | cons a l ih =>
    rw [List.filter_cons, List.flatMap_cons]
    cases hp : p a with
    | true =>
      rw [if_pos rfl, List.flatMap_cons,
        ih (fun d hd => h d (List.mem_cons_of_mem _ hd))]
    | false =>
      rw [if_neg (by simp), h a (List.mem_cons_self _ _) hp, List.nil_append,
        ih (fun d hd => h d (List.mem_cons_of_mem _ hd))]

theorem Forall₂_and {γ δ} {R S : γ → δ → Prop} :
    ∀ {l : List γ} {l' : List δ}, List.Forall₂ R l l' → List.Forall₂ S l l' →
      List.Forall₂ (fun a b => R a b ∧ S a b) l l'
  | _, _, List.Forall₂.nil, _ => .nil
  | _, _, List.Forall₂.cons hr hrt, hS => by
    cases hS with
    | cons hs hst => exact .cons ⟨hr, hs⟩ (Forall₂_and hrt hst)

theorem Forall₂_imp_mem {γ δ} {R S : γ → δ → Prop} :
    ∀ {l : List γ} {l' : List δ}, List.Forall₂ R l l' →
      (∀ a ∈ l, ∀ b ∈ l', R a b → S a b) → List.Forall₂ S l l'
  | _, _, List.Forall₂.nil, _ => .nil
  | _, _, List.Forall₂.cons h htail, hm =>
    .cons (hm _ (List.mem_cons_self _ _) _ (List.mem_cons_self _ _) h)
      (Forall₂_imp_mem htail (fun a ha b hb hr =>
        hm a (List.mem_cons_of_mem _ ha) b (List.mem_cons_of_mem _ hb) hr))

theorem Forall₂_mem_right {γ δ} {R : γ → δ → Prop} :
    ∀ {l : List γ} {l' : List δ}, List.Forall₂ R l l' →
      ∀ b ∈ l', ∃ a ∈ l, R a b
  | _, _, List.Forall₂.nil, b, hb => by simp at hb
  | _, _, List.Forall₂.cons h htail, b, hb => by
    rcases List.mem_cons.mp hb with rfl | hb'
    · exact ⟨_, List.mem_cons_self _ _, h⟩
    · obtain ⟨a, ha, hr⟩ := Forall₂_mem_right htail b hb'
      exact ⟨a, List.mem_cons_of_mem _ ha, hr⟩

theorem Forall₂_mem_left {γ δ} {R : γ → δ → Prop} :
    ∀ {l : List γ} {l' : List δ}, List.Forall₂ R l l' →
      ∀ a ∈ l, ∃ b ∈ l', R a b
  | _, _, List.Forall₂.nil, a, ha => by simp at ha
  | _, _, List.Forall₂.cons h htail, a, ha => by
    rcases List.mem_cons.mp ha with rfl | ha'
    · exact ⟨_, List.mem_cons_self _ _, h⟩
    · obtain ⟨b, hb, hr⟩ := Forall₂_mem_left htail a ha'
      exact ⟨b, List.mem_cons_of_mem _ hb, hr⟩

/-- Rewriting of `isUnchanged` by the looked-up cache entry. -/
theorem isUnchanged_eq {α} (cache : List (Str × List (DocumentChunk α)))
    (d : ProcessedDocument) :
    isUnchanged cache d =
      match mapGet cache d.relativePath with
      | some (c :: _) => c.metadata.fileHash == some (hashContent d.content)
      | some [] => false
      | none => false := by
  unfold isUnchanged
  cases mapGet cache d.relativePath with
  | none => rfl
  | some l => cases l <;> rfl

/-- Rebuilding over a database whose chunks decompose into per-document blocks
with the chunker's metadata (the result of a previous build of the same
documents) reuses every chunk verbatim, performs no embedding call, and
classifies exactly the documents with at least one chunk as unchanged. -/
theorem build_reuse {α} (e : Str → List α) (mn : Str) (dim : Nat)
    (opts : ChunkerOptions) (docs : List ProcessedDocument)
    (db1 : VectorDatabase α) (blocks : List (List (DocumentChunk α)))
    (hnd : (docs.map (·.relativePath)).Nodup)
    (hL : db1.chunks = blocks.flatten)
    (hmeta : List.Forall₂ (fun d B => B.map (·.metadata) =
      (chunkDocument opts d (mapGet (fileHashesOf docs) d.relativePath)).map
        (·.metadata)) docs blocks) :
    (build e mn dim opts docs (some db1)).1.chunks = db1.chunks ∧
    (build e mn dim opts docs (some db1)).2 = 0 ∧
    ∀ d ∈ docs,
      (chunkDocument opts d (mapGet (fileHashesOf docs) d.relativePath) ≠ [] →
        isUnchanged (buildCacheMap (some db1)) d = true) ∧
      (chunkDocument opts d (mapGet (fileHashesOf docs) d.relativePath) = [] →
        isUnchanged (buildCacheMap (some db1)) d = false) := by
  have hkeyed : List.Forall₂
      (fun d B => ∀ x ∈ B, x.metadata.sourceFile = d.relativePath) docs blocks := by
    refine hmeta.imp ?_
    intro d B hBm x hx
    have hxm : x.metadata ∈ B.map (·.metadata) := List.mem_map_of_mem _ hx
    rw [hBm] at hxm
    obtain ⟨t, ht, hmeq⟩ := List.mem_map.mp hxm
    rw [← hmeq]
    exact (chunkDocument_sourceFile_fileHash opts d _ t ht).1
  have hhash : ∀ x ∈ db1.chunks, ∀ d ∈ docs,
      x.metadata.sourceFile = d.relativePath →
      x.metadata.fileHash = some (hashContent d.content) := by
    intro x hx d hd hsf
    rw [hL] at hx
    obtain ⟨B, hB, hxB⟩ := List.mem_flatten.mp hx
    obtain ⟨d', hd', hmem⟩ := Forall₂_mem_right hmeta B hB
    have hxm : x.metadata ∈ B.map (·.metadata) := List.mem_map_of_mem _ hxB
    rw [hmem] at hxm
    obtain ⟨t, ht, hmeq⟩ := List.mem_map.mp hxm
    have hts := (chunkDocument_sourceFile_fileHash opts d' _ t ht).1
    have hth := (chunkDocument_sourceFile_fileHash opts d' _ t ht).2
    have hdd : d' = d :=
      List.inj_on_of_nodup_map hnd hd' hd (by rw [← hts, hmeq, hsf])
    subst hdd
    rw [← hmeq, hth, fileHashesOf_get docs hnd d' hd]
  have hR2 : List.Forall₂ (fun d B =>
      db1.chunks.filter (fun x => x.metadata.sourceFile == d.relativePath) = B)
      docs blocks := by
    have := blocks_filter docs blocks hkeyed [] hnd (by simp)
    refine this.imp ?_
    intro d B hfil
    rw [← hfil, List.nil_append, hL]
  have hget : List.Forall₂ (fun d B =>
      mapGet (buildCacheMap (some db1)) d.relativePath = cacheJoin none B)
      docs blocks := by
    refine hR2.imp ?_
    intro d B hfil
    rw [buildCacheMap_get, hfil]
  have hclass : List.Forall₂ (fun d B =>
      (B ≠ [] → isUnchanged (buildCacheMap (some db1)) d = true) ∧
      (B = [] → isUnchanged (buildCacheMap (some db1)) d = false)) docs blocks := by
    refine Forall₂_imp_mem (Forall₂_and hget hkeyed) ?_
    intro d hd B hB hpair
    obtain ⟨hpget, hpkey⟩ := hpair
    constructor
    · intro hBne
      cases B with
      | nil => exact absurd rfl hBne
      | cons b bs =>
        rw [isUnchanged_eq, hpget]
        have hb1 : b ∈ db1.chunks := by
          rw [hL]
          exact List.mem_flatten.mpr ⟨b :: bs, hB, List.mem_cons_self _ _⟩
        have hbk : b.metadata.sourceFile = d.relativePath :=
          hpkey b (List.mem_cons_self _ _)
        have := hhash b hb1 d hd hbk
        simp [cacheJoin, this]
    · intro hBe
      subst hBe
      rw [isUnchanged_eq, hpget]
      rfl
  have hgetD : List.Forall₂ (fun d B =>
      (mapGet (buildCacheMap (some db1)) d.relativePath).getD [] = B) docs blocks := by
    refine hget.imp ?_
    intro d B hpair
    rw [hpair]
    cases B <;> rfl
  have hchangednil : ∀ d ∈ docs, isUnchanged (buildCacheMap (some db1)) d = false →
      chunkDocument opts d (mapGet (fileHashesOf docs) d.relativePath) = [] := by
    intro d hd hfalse
    obtain ⟨B, hB, hm, hcl⟩ := Forall₂_mem_left (Forall₂_and hmeta hclass) d hd
    cases B with
    | nil =>
      have : (chunkDocument opts d
          (mapGet (fileHashesOf docs) d.relativePath)).map (·.metadata) = [] := by
        rw [← hm]
        rfl
      exact List.map_eq_nil_iff.mp this
    | cons b bs =>
      rw [hcl.1 (by simp)] at hfalse
      cases hfalse
  have hreused :
      (docs.filter (fun d => isUnchanged (buildCacheMap (some db1)) d)).flatMap
        (fun d => (mapGet (buildCacheMap (some db1)) d.relativePath).getD []) =
        db1.chunks := by
    rw [flatMap_filter_of_nil]
    · have hmap := Forall₂_eq_map
        (fun d => (mapGet (buildCacheMap (some db1)) d.relativePath).getD [])
        docs blocks hgetD
      calc docs.flatMap
            (fun d => (mapGet (buildCacheMap (some db1)) d.relativePath).getD [])
          = (docs.map
              (fun d => (mapGet (buildCacheMap (some db1)) d.relativePath).getD [])).flatten :=
            rfl
        _ = blocks.flatten := by rw [hmap]
        _ = db1.chunks := hL.symm
    · intro d hd hfalse
      obtain ⟨B, hB, hgd, hcl⟩ := Forall₂_mem_left (Forall₂_and hgetD hclass) d hd
      cases B with
      | nil => exact hgd
      | cons b bs =>
        rw [hcl.1 (by simp)] at hfalse
        cases hfalse
  have hchunks2 :
      chunkDocuments opts
        (docs.filter (fun d => !isUnchanged (buildCacheMap (some db1)) d))
        (some (fileHashesOf docs)) = [] := by
    unfold chunkDocuments
    have : ∀ d ∈ docs.filter (fun d => !isUnchanged (buildCacheMap (some db1)) d),
        chunkDocument opts d
          ((some (fileHashesOf docs)).bind (fun m => mapGet m d.relativePath)) = [] := by
      intro d hd
      have hmem := List.mem_of_mem_filter hd
      have hpred := List.of_mem_filter hd
      simp only [Bool.not_eq_true'] at hpred
      exact hchangednil d hmem hpred
    calc (docs.filter (fun d => !isUnchanged (buildCacheMap (some db1)) d)).flatMap
          (fun d => chunkDocument opts d
            ((some (fileHashesOf docs)).bind (fun m => mapGet m d.relativePath)))
        = ((docs.filter (fun d => !isUnchanged (buildCacheMap (some db1)) d)).map
            (fun d => chunkDocument opts d
              ((some (fileHashesOf docs)).bind (fun m => mapGet m d.relativePath)))).flatten :=
          rfl
      _ = [] := by
          apply List.flatten_eq_nil_iff.mpr
          intro l hl
          obtain ⟨d, hd, hdl⟩ := List.mem_map.mp hl
          rw [← hdl]
          exact this d hd
  refine ⟨?_, ?_, ?_⟩
  · simp only [build]
    cases hem : (docs.filter
        (fun d => !isUnchanged (buildCacheMap (some db1)) d)).isEmpty with
    | true => simp [hem, hreused]
    | false => simp [hem, hchunks2, hreused]
  · simp only [build]
    cases hem : (docs.filter
        (fun d => !isUnchanged (buildCacheMap (some db1)) d)).isEmpty with
    | true => simp [hem]
    | false => simp [hem, hchunks2]
  · intro d hd
    obtain ⟨B, hB, hm, hcl⟩ := Forall₂_mem_left (Forall₂_and hmeta hclass) d hd
    constructor
    · intro hne
      refine hcl.1 ?_
      intro hBe
      subst hBe
      exact hne (List.map_eq_nil_iff.mp (by rw [← hm]; rfl))
    · intro hnil
      refine hcl.2 ?_
      have : B.map (·.metadata) = [] := by rw [hm, hnil]; rfl
      exact List.map_eq_nil_iff.mp this

/-- In a from-scratch build (`existing = none`), every document is classified
as changed, nothing is reused, and the chunk list is the indexed conversion of
the chunker output. -/
theorem build_none_chunks {α} (e : Str → List α) (mn : Str) (dim : Nat)
    (opts : ChunkerOptions) (docs : List ProcessedDocument) :
    (build e mn dim opts docs none).1.chunks =
      (chunkDocuments opts docs (some (fileHashesOf docs))).mapIdx (fun i c =>
        { id := generateChunkId c.text c.metadata.sourceFile i
          text := c.text
          embedding :=
            (((chunkDocuments opts docs (some (fileHashesOf docs))).map (·.text)).map e).getD i []
          metadata := c.metadata }) := by
  by_cases hd : docs = []
  · subst hd; rfl
  · have h0 : buildCacheMap (α := α) none = [] := rfl
    have h1 : docs.filter (fun d => isUnchanged (buildCacheMap (α := α) none) d) = [] := by
      simp [h0, isUnchanged_nil]
    have h2 : docs.filter (fun d => !isUnchanged (buildCacheMap (α := α) none) d) = docs := by
      simp [h0, isUnchanged_nil]
    have h3 : docs.isEmpty = false := by
      simpa [List.isEmpty_iff] using hd
    simp only [build, h1, h2, h3, List.flatMap_nil, Bool.false_eq_true, if_false,
      List.nil_append]

/-- Two one-chunk documents used to exercise builds and the id scheme. -/
def docHello : ProcessedDocument := ⟨"a.md".data, "hello".data, none, "/a".data⟩

/-- Second document, producing the batch's chunk at global index 1. -/
def docWorld : ProcessedDocument := ⟨"b.md".data, "world".data, none, "/b".data⟩

/-! ### Claim C1: idempotent incremental rebuild -/

/-- C1 amended: for documents with pairwise-distinct relative paths (their
identifier in the data model), rebuilding immediately after a from-scratch
build with no content changes returns an identical database (same ids, same
embeddings, same order — the whole record is equal) and makes zero embedding
calls; every document that produced at least one chunk is classified as
unchanged, while a document that produced no chunks (for example an empty
document) is re-classified as changed yet contributes no chunks and no
embedding calls. -/
theorem C1_incremental_rebuild {α} (e : Str → List α) (mn : Str) (dim : Nat)
    (opts : ChunkerOptions) (docs : List ProcessedDocument)
    (hnd : (docs.map (·.relativePath)).Nodup) :
    (build e mn dim opts docs (some (build e mn dim opts docs none).1)).1 =
      (build e mn dim opts docs none).1 ∧
    (build e mn dim opts docs (some (build e mn dim opts docs none).1)).2 = 0 ∧
    ∀ d ∈ docs,
      (chunkDocument opts d (mapGet (fileHashesOf docs) d.relativePath) ≠ [] →
        isUnchanged (buildCacheMap (some (build e mn dim opts docs none).1)) d = true) ∧
      (chunkDocument opts d (mapGet (fileHashesOf docs) d.relativePath) = [] →
        isUnchanged (buildCacheMap (some (build e mn dim opts docs none).1)) d = false) := by
  obtain ⟨blocks, hb1, hb2⟩ := mapIdx_flatMap_blocks docs
    (fun d => chunkDocument opts d (mapGet (fileHashesOf docs) d.relativePath))
    (fun i c =>
      { id := generateChunkId c.text c.metadata.sourceFile i
        text := c.text
        embedding :=
          (((chunkDocuments opts docs (some (fileHashesOf docs))).map (·.text)).map e).getD i []
        metadata := c.metadata })
    (fun _ _ => rfl)
  have hL : (build e mn dim opts docs none).1.chunks = blocks.flatten := by
    rw [build_none_chunks]
    exact hb1
  obtain ⟨h1, h2, h3⟩ :=
    build_reuse e mn dim opts docs (build e mn dim opts docs none).1 blocks hnd hL hb2
  refine ⟨?_, h2, h3⟩
  calc (build e mn dim opts docs (some (build e mn dim opts docs none).1)).1
      = ⟨"1.0".data, mn, dim,
          (build e mn dim opts docs (some (build e mn dim opts docs none).1)).1.chunks⟩ := rfl
    _ = ⟨"1.0".data, mn, dim, (build e mn dim opts docs none).1.chunks⟩ := by rw [h1]
    _ = (build e mn dim opts docs none).1 := rfl

/-- Empty document: it chunks to nothing, so it never enters the cache. -/
def docEmpty : ProcessedDocument := ⟨"e.md".data, "".data, none, "/e".data⟩

set_option maxRecDepth 100000 in
/-- C1 counterexample: the claim says a second build with no changes
classifies *every* document as unchanged.  A document producing zero chunks
(here: empty content) has no cache entry after the first build, so the second
build classifies it as changed. -/
theorem C1_counterexample :
    isUnchanged
      (buildCacheMap
        (some (build (fun _ => ([] : List ℚ)) "m".data 384 ⟨500, 50⟩ [docEmpty] none).1))
      docEmpty = false := by
  decide

set_option maxRecDepth 100000 in
/-- Witness for C1's amended claim at a concrete input: a one-document
collection rebuilds to an identical database with zero embedding calls. -/
theorem C1_witness :
    (build (fun _ => ([1] : List ℚ)) "m".data 384 ⟨500, 50⟩ [docHello]
        (some (build (fun _ => ([1] : List ℚ)) "m".data 384 ⟨500, 50⟩ [docHello] none).1)).1 =
      (build (fun _ => ([1] : List ℚ)) "m".data 384 ⟨500, 50⟩ [docHello] none).1 ∧
    (build (fun _ => ([1] : List ℚ)) "m".data 384 ⟨500, 50⟩ [docHello]
        (some (build (fun _ => ([1] : List ℚ)) "m".data 384 ⟨500, 50⟩ [docHello] none).1)).2 = 0 :=
  by
  have hnd : (([docHello] : List ProcessedDocument).map (fun x => x.relativePath)).Nodup := by
    simp
  exact ⟨(C1_incremental_rebuild (fun _ => ([1] : List ℚ)) "m".data 384 ⟨500, 50⟩
      [docHello] hnd).1,
    (C1_incremental_rebuild (fun _ => ([1] : List ℚ)) "m".data 384 ⟨500, 50⟩
      [docHello] hnd).2.1⟩

/-! ### Claim C3: chunk id scheme -/

/-- A from-scratch build over the two one-chunk documents (embedder irrelevant
to ids). -/
def dbTwoDocs : VectorDatabase ℚ :=
  (build (fun _ => []) "m".data 384 ⟨500, 50⟩ [docHello, docWorld] none).1

set_option maxRecDepth 100000 in
/-- C3 counterexample: the spec claims every chunk id is the 16-hex truncation
of the MD5 of `(sourceFile, index-within-file, first 100 chars)`.  In the
two-document build, `b.md`'s only chunk (within-file index 0) gets its id from
global batch index 1, not 0. -/
theorem C3_counterexample :
    (dbTwoDocs.chunks.map (·.metadata.sourceFile)).getD 1 [] = "b.md".data ∧
    (dbTwoDocs.chunks.map (·.text)).getD 1 [] = "world".data ∧
    (dbTwoDocs.chunks.filter (fun c => c.metadata.sourceFile == "b.md".data)).length = 1 ∧
    (dbTwoDocs.chunks.map (·.id)).getD 1 [] = generateChunkId "world".data "b.md".data 1 ∧
    (dbTwoDocs.chunks.map (·.id)).getD 1 [] ≠ generateChunkId "world".data "b.md".data 0 := by
  decide

/-- An index-dependent conversion that preserves text leaves the list of
texts unchanged. -/
theorem map_text_mapIdx {α} (l : List TextChunk)
    (f : ℕ → TextChunk → DocumentChunk α)
    (hf : ∀ i c, (f i c).text = c.text) :
    (l.mapIdx f).map (·.text) = l.map (·.text) := by
  rw [List.mapIdx_eq_enum_map, List.map_map]
  calc (l.enum.map fun p => ((Function.uncurry f) p).text)
      = l.enum.map (fun p => p.2.text) :=
        List.map_congr_left (fun p _ => hf p.1 p.2)
    _ = (l.enum.map Prod.snd).map (·.text) := by rw [List.map_map]; rfl
    _ = l.map (·.text) := by rw [List.enum_map_snd]

/-- In any build — from scratch or incremental — the produced chunk list is
the reused cached chunks of the unchanged documents followed by the indexed
conversion of the changed documents' chunker output. -/
theorem build_chunks_decomp {α} (e : Str → List α) (mn : Str) (dim : Nat)
    (opts : ChunkerOptions) (docs : List ProcessedDocument)
    (existing : Option (VectorDatabase α)) :
    (build e mn dim opts docs existing).1.chunks =
      ((docs.filter fun d => isUnchanged (buildCacheMap existing) d).flatMap fun d =>
        (mapGet (buildCacheMap existing) d.relativePath).getD []) ++
      (chunkDocuments opts
          (docs.filter fun d => !isUnchanged (buildCacheMap existing) d)
          (some (fileHashesOf docs))).mapIdx (fun i c =>
        { id := generateChunkId c.text c.metadata.sourceFile i
          text := c.text
          embedding :=
            (((chunkDocuments opts
                (docs.filter fun d => !isUnchanged (buildCacheMap existing) d)
                (some (fileHashesOf docs))).map (·.text)).map e).getD i []
          metadata := c.metadata }) := by
  cases hempty : (docs.filter fun d => !isUnchanged (buildCacheMap existing) d).isEmpty
  · simp only [build, hempty, Bool.false_eq_true, if_false]
  · have hnil : (docs.filter fun d => !isUnchanged (buildCacheMap existing) d) = [] := by
      simpa [List.isEmpty_iff] using hempty
    simp only [build, hempty, if_true, hnil]
    rfl

/-- C3 amended: in every build — incremental or from scratch — the produced
chunk list splits into the reused cached chunks of the unchanged documents
followed by the batch of newly generated chunks of all changed documents, and
the newly generated chunk at batch position `i` carries the id
`generateChunkId (text, sourceFile, i)` — the 16-hex truncation of the MD5 of
`(sourceFile, global batch index across all changed documents, first 100
characters of text)` — not the index within its own file.  Identical
`(text, sourceFile, index)` triples always yield identical ids since
`generateChunkId` is a function. -/
theorem C3_amended_global_index {α} (e : Str → List α) (mn : Str) (dim : Nat)
    (opts : ChunkerOptions) (docs : List ProcessedDocument)
    (existing : Option (VectorDatabase α)) :
    ∃ newChunks : List (DocumentChunk α),
      (build e mn dim opts docs existing).1.chunks =
        ((docs.filter fun d => isUnchanged (buildCacheMap existing) d).flatMap fun d =>
          (mapGet (buildCacheMap existing) d.relativePath).getD []) ++ newChunks ∧
      (newChunks.map fun c => c.text) =
        ((chunkDocuments opts
          (docs.filter fun d => !isUnchanged (buildCacheMap existing) d)
          (some (fileHashesOf docs))).map fun c => c.text) ∧
      ∀ (i : Nat) (h : i < newChunks.length),
        (newChunks.get ⟨i, h⟩).id =
          generateChunkId (newChunks.get ⟨i, h⟩).text
            (newChunks.get ⟨i, h⟩).metadata.sourceFile i := by
  refine ⟨_, build_chunks_decomp e mn dim opts docs existing, ?_, ?_⟩
  · exact map_text_mapIdx _ _ (fun i c => rfl)
  · intro i h
    have hlen : i < (chunkDocuments opts
        (docs.filter fun d => !isUnchanged (buildCacheMap existing) d)
        (some (fileHashesOf docs))).length := by
      simpa using h
    rw [List.get_mapIdx _ _ _ hlen]

/-- A prior database indexing only `a.md`, making the next build incremental:
`a.md` is reused from the cache and `b.md` is newly generated. -/
def dbPrior : VectorDatabase ℚ :=
  (build (fun _ => []) "m".data 384 ⟨500, 50⟩ [docHello] none).1

/-- Witness for C3's amended claim at a concrete incremental input: rebuilding
over both documents against the prior one-document database decomposes into
reused chunks plus a new batch whose chunk ids follow the batch index. -/
theorem C3_amended_witness :
    ∃ newChunks : List (DocumentChunk ℚ),
      (build (fun _ => ([] : List ℚ)) "m".data 384 ⟨500, 50⟩ [docHello, docWorld]
          (some dbPrior)).1.chunks =
        ((([docHello, docWorld].filter fun d =>
            isUnchanged (buildCacheMap (some dbPrior)) d).flatMap fun d =>
          (mapGet (buildCacheMap (some dbPrior)) d.relativePath).getD []) ++ newChunks) ∧
      (newChunks.map fun c => c.text) =
        ((chunkDocuments ⟨500, 50⟩
          ([docHello, docWorld].filter fun d =>
            !isUnchanged (buildCacheMap (some dbPrior)) d)
          (some (fileHashesOf [docHello, docWorld]))).map fun c => c.text) ∧
      ∀ (i : Nat) (h : i < newChunks.length),
        (newChunks.get ⟨i, h⟩).id =
          generateChunkId (newChunks.get ⟨i, h⟩).text
            (newChunks.get ⟨i, h⟩).metadata.sourceFile i :=
  C3_amended_global_index (fun _ => ([] : List ℚ)) "m".data 384 ⟨500, 50⟩
    [docHello, docWorld] (some dbPrior)

/-- **C6** (code-block atomicity): for every document and chunker options, every
matched fenced code block of the document's lines — the opening fence, the
closing fence, and every line between them — appears contiguously and
completely inside a single chunk emitted by `chunkDocument`; no chunk boundary
falls strictly between a fence-open line and its matching fence-close line. -/
theorem C6_code_block_atomicity (opts : ChunkerOptions) (doc : ProcessedDocument)
    (fh : Option Str) (b : List Str)
    (hb : b ∈ docBlocks (splitLines doc.content)) :
    ∃ c ∈ chunkDocument opts doc fh, InChunk b c := by
  obtain ⟨c, hc, hin⟩ := blocks_in_final opts doc fh (splitLines doc.content)
    ⟨[], [], none, false, []⟩ b hb
  refine ⟨c, ?_, hin⟩
  rw [chunkDocument_eq_finalChunks]
  apply List.mem_filter.mpr
  refine ⟨hc, ?_⟩
  obtain ⟨lf, hlf, hfence⟩ := docBlocksAux_hasFence (splitLines doc.content) false [] b hb
  obtain ⟨pre, post, htext⟩ := hin
  have hpos : '`' ∈ trimJs c.text := by
    apply mem_trimJs _ _ (by decide)
    rw [← htext]
    apply mem_trimJs _ _ (by decide)
    exact mem_joinLines _ (pre ++ b ++ post) lf
      (List.mem_append.mpr (Or.inl (List.mem_append.mpr (Or.inr hlf))))
      (fenceLine_backtick lf hfence)
  simp only [gt_iff_lt, decide_eq_true_eq]
  exact List.length_pos.mpr (List.ne_nil_of_mem hpos)

set_option maxRecDepth 100000 in
/-- Witness for C6 at a concrete fenced document: its single matched block (the
whole file) lies inside one emitted chunk. -/
theorem C6_witness :
    ∃ c ∈ chunkDocument ⟨500, 50⟩ docFence none,
      InChunk (splitLines docFence.content) c :=
  C6_code_block_atomicity ⟨500, 50⟩ docFence none (splitLines docFence.content) (by decide)

/-! ### Vector search (`src/src/client/chat/vector-search.ts`)

JS numbers are idealized as an arbitrary linear ordered field `K` together
with the square-root function; the running program is the instance `K := ℝ`
with `Math.sqrt = Real.sqrt`. -/

/-- A search result: a chunk paired with its similarity score. -/
structure SearchResult (K : Type _) where
  chunk : DocumentChunk K
  score : K
deriving DecidableEq

/-- The accumulated `normA`/`normB` before the square root: `Σ v[i]²`. -/
def sumOfSquares {K : Type _} [LinearOrderedField K] (v : List K) : K :=
  (v.map fun x => x * x).sum

/-- The accumulated `dotProduct`: `Σ a[i]·b[i]` over the common indices
(the loop runs after the length check, so the lengths agree). -/
def dotProduct {K : Type _} [LinearOrderedField K] (a b : List K) : K :=
  ((a.zip b).map fun p => p.1 * p.2).sum

/-- `VectorSearch.cosineSimilarity`: throw on a length mismatch; otherwise
compute the dot product and the two norms, return `0` if either norm is
zero, and the normalized dot product otherwise. -/
def cosineSimilarity {K : Type _} [LinearOrderedField K] (sqrt : K → K)
    (a b : List K) : Except Str K :=
  if a.length ≠ b.length then
    Except.error "Vectors must have the same length".data
  else
    let dotP := dotProduct a b
    let normA := sqrt (sumOfSquares a)
    let normB := sqrt (sumOfSquares b)
    if normA = 0 ∨ normB = 0 then Except.ok 0
    else Except.ok (dotP / (normA * normB))

/-- The comparator `(a, b) => b.score - a.score` together with the ECMAScript
stability requirement orders (original position, result) pairs by strictly
descending score, with ties by ascending original position. -/
def rankRel {K : Type _} [LinearOrderedField K]
    (p q : Nat × SearchResult K) : Prop :=
  q.2.score < p.2.score ∨ (p.2.score = q.2.score ∧ p.1 ≤ q.1)

instance {K : Type _} [LinearOrderedField K] :
    DecidableRel (rankRel (K := K)) := fun p q => by
  unfold rankRel
  infer_instance

instance {K : Type _} [LinearOrderedField K] :
    IsTotal (Nat × SearchResult K) rankRel where
  total p q := by
    unfold rankRel
    rcases lt_trichotomy p.2.score q.2.score with h | h | h
    · exact Or.inr (Or.inl h)
    · rcases Nat.le_total p.1 q.1 with hi | hi
      · exact Or.inl (Or.inr ⟨h, hi⟩)
      · exact Or.inr (Or.inr ⟨h.symm, hi⟩)
    · exact Or.inl (Or.inl h)

instance {K : Type _} [LinearOrderedField K] :
    IsTrans (Nat × SearchResult K) rankRel where
  trans p q r hpq hqr := by
    unfold rankRel at hpq hqr ⊢
    rcases hpq with h1 | ⟨h1, hi1⟩
    · rcases hqr with h2 | ⟨h2, hi2⟩
      · exact Or.inl (h2.trans h1)
      · exact Or.inl (h2 ▸ h1)
    · rcases hqr with h2 | ⟨h2, hi2⟩
      · exact Or.inl (by rw [h1]; exact h2)
      · exact Or.inr ⟨h1.trans h2, hi1.trans hi2⟩

/-- `results.sort((a, b) => b.score - a.score)`: ECMAScript requires
`Array.prototype.sort` with a consistent comparator to produce a stable
sorted array, which determines the output uniquely — descending score, ties
kept in original order. -/
def jsSortByScoreDesc {K : Type _} [LinearOrderedField K]
    (results : List (SearchResult K)) : List (SearchResult K) :=
  ((results.enum).insertionSort rankRel).map Prod.snd

/-- JS `arr.slice(0, end)`: a negative `end` counts back from the array's
end, and the result is the prefix up to the clamped index. -/
def jsSliceTo {β : Type _} (l : List β) (e : Int) : List β :=
  if e < 0 then l.take (e + l.length).toNat else l.take e.toNat

/-- `VectorSearch.search`: score every chunk of the database against the
query embedding, sort by descending score, and `slice(0, topK)`. -/
def search {K : Type _} [LinearOrderedField K] (sqrt : K → K)
    (db : VectorDatabase K) (queryEmbedding : List K) (topK : Int) :
    Except Str (List (SearchResult K)) :=
  (db.chunks.mapM fun chunk =>
      (cosineSimilarity sqrt queryEmbedding chunk.embedding).map fun s =>
        (⟨chunk, s⟩ : SearchResult K)).map
    fun results => jsSliceTo (jsSortByScoreDesc results) topK

/-- Equal-length vectors always score to `ok`. -/
theorem cosineSimilarity_ok {K : Type _} [LinearOrderedField K] (sqrt : K → K)
    (a b : List K) (h : a.length = b.length) :
    ∃ s, cosineSimilarity sqrt a b = Except.ok s := by
  unfold cosineSimilarity
  rw [if_neg (not_not_intro h)]
  dsimp only
  split
  · exact ⟨0, rfl⟩
  · exact ⟨_, rfl⟩

/-- `Except.map` hits `ok` only on an `ok` argument. -/
theorem Except_map_ok {ε γ δ : Type _} (f : γ → δ) (e : Except ε γ) (r : δ)
    (h : e.map f = Except.ok r) : ∃ s, e = Except.ok s ∧ r = f s := by
  cases e with
  | error err => simp [Except.map] at h
  | ok s =>
    simp only [Except.map, Except.ok.injEq] at h
    exact ⟨s, rfl, h.symm⟩

/-- If every element maps to `ok`, `mapM` over `Except` is `ok` of the
pointwise results. -/
theorem mapM_ok {ε α β : Type _} (f : α → Except ε β) :
    ∀ l : List α, (∀ a ∈ l, ∃ b, f a = Except.ok b) →
      ∃ rs, l.mapM f = Except.ok rs ∧
        List.Forall₂ (fun a r => f a = Except.ok r) l rs
  | [], _ => ⟨[], rfl, List.Forall₂.nil⟩
  | a :: l, h => by
    obtain ⟨b, hb⟩ := h a (List.mem_cons_self a l)
    obtain ⟨rs, hrs, hf⟩ := mapM_ok f l fun x hx => h x (List.mem_cons_of_mem a hx)
    refine ⟨b :: rs, ?_, List.Forall₂.cons hb hf⟩
    rw [List.mapM_cons, hb, hrs]
    rfl

/-- **C7** (cosine-similarity totality and failure): `cosineSimilarity` throws
exactly on a length mismatch; for two equal-length vectors it never throws,
returning `0` whenever either vector's norm is zero and the dot product
divided by the product of the two norms otherwise. -/
theorem C7_cosine_similarity (a b : List ℝ) :
    (a.length ≠ b.length →
      cosineSimilarity Real.sqrt a b =
        Except.error "Vectors must have the same length".data) ∧
    (a.length = b.length →
      (∃ s, cosineSimilarity Real.sqrt a b = Except.ok s) ∧
      ((Real.sqrt (sumOfSquares a) = 0 ∨ Real.sqrt (sumOfSquares b) = 0) →
        cosineSimilarity Real.sqrt a b = Except.ok 0) ∧
      (Real.sqrt (sumOfSquares a) ≠ 0 → Real.sqrt (sumOfSquares b) ≠ 0 →
        cosineSimilarity Real.sqrt a b =
          Except.ok (dotProduct a b /
            (Real.sqrt (sumOfSquares a) * Real.sqrt (sumOfSquares b))))) := by
  refine ⟨fun hne => ?_,
    fun heq => ⟨cosineSimilarity_ok Real.sqrt a b heq, fun hz => ?_, fun hna hnb => ?_⟩⟩
  · unfold cosineSimilarity
    rw [if_pos hne]
  · unfold cosineSimilarity
    rw [if_neg (not_not_intro heq)]
    dsimp only
    rw [if_pos hz]
  · unfold cosineSimilarity
    rw [if_neg (not_not_intro heq)]
    dsimp only
    rw [if_neg (by push_neg; exact ⟨hna, hnb⟩)]

/-- Witness for C7 at concrete vectors: a length mismatch, a zero vector, and
a generic pair. -/
theorem C7_witness :
    cosineSimilarity Real.sqrt [(1 : ℝ)] [1, 2] =
      Except.error "Vectors must have the same length".data ∧
    cosineSimilarity Real.sqrt [(0 : ℝ)] [1] = Except.ok 0 ∧
    cosineSimilarity Real.sqrt [(1 : ℝ)] [1] =
      Except.ok (dotProduct [(1 : ℝ)] [1] /
        (Real.sqrt (sumOfSquares [(1 : ℝ)]) * Real.sqrt (sumOfSquares [(1 : ℝ)]))) :=
  ⟨(C7_cosine_similarity [1] [1, 2]).1 (by decide),
   (((C7_cosine_similarity [0] [1]).2 rfl).2.1
      (Or.inl (by simp [sumOfSquares]))),
   (((C7_cosine_similarity [1] [1]).2 rfl).2.2
      (by simp [sumOfSquares]) (by simp [sumOfSquares]))⟩

theorem Forall₂_swap {γ δ} {R : γ → δ → Prop} :
    ∀ {l : List γ} {l' : List δ}, List.Forall₂ R l l' →
      List.Forall₂ (fun b a => R a b) l' l
  | _, _, List.Forall₂.nil => .nil
  | _, _, List.Forall₂.cons h ht => .cons h (Forall₂_swap ht)

/-- **C8** (top-K ordering): with a well-dimensioned database and a
non-negative `topK`, `search` succeeds, scoring every chunk of the database in
order; its output is the first `min(topK, N)` entries of a ranking that is a
permutation of the scored chunks, sorted by descending score with ties broken
by the original position (the stable-sort order). -/
theorem C8_top_k_ordering (db : VectorDatabase ℝ) (q : List ℝ) (topK : Int)
    (hdim : ∀ c ∈ db.chunks, c.embedding.length = q.length) (htk : 0 ≤ topK) :
    ∃ scored ranked : List (Nat × SearchResult ℝ),
      (scored.map fun p => p.2.chunk) = db.chunks ∧
      scored.map Prod.fst = List.range db.chunks.length ∧
      (∀ p ∈ scored,
        cosineSimilarity Real.sqrt q p.2.chunk.embedding = Except.ok p.2.score) ∧
      ranked.Perm scored ∧
      ranked.Sorted rankRel ∧
      search Real.sqrt db q topK =
        Except.ok ((ranked.map Prod.snd).take topK.toNat) ∧
      ((ranked.map Prod.snd).take topK.toNat).length =
        min topK.toNat db.chunks.length := by
  obtain ⟨rs, hrs, hf⟩ := mapM_ok
    (fun chunk => (cosineSimilarity Real.sqrt q chunk.embedding).map fun s =>
      (⟨chunk, s⟩ : SearchResult ℝ))
    db.chunks
    (fun c hc => by
      obtain ⟨s, hs⟩ := cosineSimilarity_ok Real.sqrt q c.embedding (hdim c hc).symm
      exact ⟨⟨c, s⟩, by dsimp only; rw [hs]; rfl⟩)
  have hchunk : List.Forall₂ (fun c r => r.chunk = c) db.chunks rs :=
    hf.imp fun c r h => by
      obtain ⟨s, hs, hr⟩ := Except_map_ok _ _ _ h
      rw [hr]
  have hcos : List.Forall₂
      (fun c r => cosineSimilarity Real.sqrt q r.chunk.embedding = Except.ok r.score)
      db.chunks rs :=
    hf.imp fun c r h => by
      obtain ⟨s, hs, hr⟩ := Except_map_ok _ _ _ h
      rw [hr]
      exact hs
  have hmapchunk : rs.map (fun r => r.chunk) = db.chunks :=
    Forall₂_eq_map _ _ _ (Forall₂_swap hchunk)
  have hlen : rs.length = db.chunks.length := hf.length_eq.symm
  refine ⟨rs.enum, (rs.enum).insertionSort rankRel, ?_, ?_, ?_,
    List.perm_insertionSort rankRel rs.enum,
    List.sorted_insertionSort rankRel rs.enum, ?_, ?_⟩
  · have h1 : rs.enum.map (fun p => p.2.chunk) =
        (rs.enum.map Prod.snd).map (fun r => r.chunk) := by
      rw [List.map_map]
      rfl
    rw [h1, List.enum_map_snd, hmapchunk]
  · rw [List.enum_map_fst, hlen]
  · intro p hp
    have hsnd : p.2 ∈ rs := by
      have := List.mem_map_of_mem Prod.snd hp
      rwa [List.enum_map_snd] at this
    obtain ⟨c, hc, hcr⟩ := Forall₂_mem_right hcos p.2 hsnd
    exact hcr
  · unfold search
    rw [hrs]
    show Except.ok (jsSliceTo (jsSortByScoreDesc rs) topK) = _
    unfold jsSliceTo
    rw [if_neg (not_lt.mpr htk)]
    rfl
  · rw [List.length_take, List.length_map,
      (List.perm_insertionSort rankRel rs.enum).length_eq, List.enum_length, hlen]

/-- A two-chunk real-valued database for exercising the search theorems. -/
def chunkA : DocumentChunk ℝ :=
  { id := "a".data, text := "a".data, embedding := [1, 0],
    metadata := { sourceFile := "a.md".data, title := "A".data, heading := none,
                  headingId := none, url := "/a".data, startLine := none,
                  endLine := none, fileHash := none } }

def chunkB : DocumentChunk ℝ :=
  { id := "b".data, text := "b".data, embedding := [0, 1],
    metadata := { sourceFile := "b.md".data, title := "B".data, heading := none,
                  headingId := none, url := "/b".data, startLine := none,
                  endLine := none, fileHash := none } }

def dbTwoR : VectorDatabase ℝ :=
  { version := "1.0".data, model := "m".data, dimension := 2,
    chunks := [chunkA, chunkB] }

/-- Witness for C8 at the concrete two-chunk database with `topK = 1`. -/
theorem C8_witness :
    ∃ scored ranked : List (Nat × SearchResult ℝ),
      (scored.map fun p => p.2.chunk) = dbTwoR.chunks ∧
      scored.map Prod.fst = List.range dbTwoR.chunks.length ∧
      (∀ p ∈ scored,
        cosineSimilarity Real.sqrt [(1 : ℝ), 0] p.2.chunk.embedding =
          Except.ok p.2.score) ∧
      ranked.Perm scored ∧
      ranked.Sorted rankRel ∧
      search Real.sqrt dbTwoR [(1 : ℝ), 0] 1 =
        Except.ok ((ranked.map Prod.snd).take (1 : Int).toNat) ∧
      ((ranked.map Prod.snd).take (1 : Int).toNat).length =
        min (1 : Int).toNat dbTwoR.chunks.length :=
  C8_top_k_ordering dbTwoR [1, 0] 1 (by decide) (by decide)

/-- **C10** (negative `topK` at the search interface): for a well-dimensioned
database with `N` chunks and a negative `topK` with `N + topK > 0`, `search`
succeeds and returns the first `N + topK` entries of the full descending
ranking — every scored chunk except the `|topK|` lowest-ranked ones — and in
particular a nonempty list. -/
theorem C10_negative_topk (db : VectorDatabase ℝ) (q : List ℝ) (topK : Int)
    (hdim : ∀ c ∈ db.chunks, c.embedding.length = q.length)
    (hneg : topK < 0) (hpos : 0 < topK + (db.chunks.length : Int)) :
    ∃ rs : List (SearchResult ℝ),
      (rs.map fun r => r.chunk) = db.chunks ∧
      (∀ r ∈ rs, cosineSimilarity Real.sqrt q r.chunk.embedding = Except.ok r.score) ∧
      search Real.sqrt db q topK =
        Except.ok ((jsSortByScoreDesc rs).take (topK + (db.chunks.length : Int)).toNat) ∧
      ((jsSortByScoreDesc rs).take (topK + (db.chunks.length : Int)).toNat).length =
        (topK + (db.chunks.length : Int)).toNat ∧
      (jsSortByScoreDesc rs).take (topK + (db.chunks.length : Int)).toNat ≠ [] := by
  obtain ⟨rs, hrs, hf⟩ := mapM_ok
    (fun chunk => (cosineSimilarity Real.sqrt q chunk.embedding).map fun s =>
      (⟨chunk, s⟩ : SearchResult ℝ))
    db.chunks
    (fun c hc => by
      obtain ⟨s, hs⟩ := cosineSimilarity_ok Real.sqrt q c.embedding (hdim c hc).symm
      exact ⟨⟨c, s⟩, by dsimp only; rw [hs]; rfl⟩)
  have hchunk : List.Forall₂ (fun c r => r.chunk = c) db.chunks rs :=
    hf.imp fun c r h => by
      obtain ⟨s, hs, hr⟩ := Except_map_ok _ _ _ h
      rw [hr]
  have hcos : List.Forall₂
      (fun c r => cosineSimilarity Real.sqrt q r.chunk.embedding = Except.ok r.score)
      db.chunks rs :=
    hf.imp fun c r h => by
      obtain ⟨s, hs, hr⟩ := Except_map_ok _ _ _ h
      rw [hr]
      exact hs
  have hlen : rs.length = db.chunks.length := hf.length_eq.symm
  have hsortlen : (jsSortByScoreDesc rs).length = db.chunks.length := by
    unfold jsSortByScoreDesc
    rw [List.length_map, (List.perm_insertionSort rankRel rs.enum).length_eq,
      List.enum_length, hlen]
  have htake : ((jsSortByScoreDesc rs).take (topK + (db.chunks.length : Int)).toNat).length =
      (topK + (db.chunks.length : Int)).toNat := by
    rw [List.length_take, hsortlen]
    omega
  refine ⟨rs, Forall₂_eq_map _ _ _ (Forall₂_swap hchunk), ?_, ?_, htake, ?_⟩
  · intro r hr
    obtain ⟨c, hc, hcr⟩ := Forall₂_mem_right hcos r hr
    exact hcr
  · unfold search
    rw [hrs]
    show Except.ok (jsSliceTo (jsSortByScoreDesc rs) topK) = _
    unfold jsSliceTo
    rw [if_pos hneg, hsortlen]
  · intro hnil
    have := htake
    rw [hnil] at this
    simp only [List.length_nil] at this
    omega

/-- Witness for C10 at the concrete two-chunk database with `topK = -1`. -/
theorem C10_witness :
    ∃ rs : List (SearchResult ℝ),
      (rs.map fun r => r.chunk) = dbTwoR.chunks ∧
      (∀ r ∈ rs, cosineSimilarity Real.sqrt [(1 : ℝ), 0] r.chunk.embedding =
        Except.ok r.score) ∧
      search Real.sqrt dbTwoR [(1 : ℝ), 0] (-1) =
        Except.ok ((jsSortByScoreDesc rs).take
          ((-1 : Int) + (dbTwoR.chunks.length : Int)).toNat) ∧
      ((jsSortByScoreDesc rs).take
          ((-1 : Int) + (dbTwoR.chunks.length : Int)).toNat).length =
        ((-1 : Int) + (dbTwoR.chunks.length : Int)).toNat ∧
      (jsSortByScoreDesc rs).take
          ((-1 : Int) + (dbTwoR.chunks.length : Int)).toNat ≠ [] :=
  C10_negative_topk dbTwoR [1, 0] (-1) (by decide) (by decide) (by decide)

/-! ### Source extraction in `queryRAG` (claim C9) -/

/-- A formatted source entry (`{ title, url }`). -/
structure SourceEntry where
  title : Str
  url : Str
deriving DecidableEq

/-- JS truthiness of an optional string: `undefined` and `""` are falsy. -/
def truthyStr : Option Str → Bool
  | none => false
  | some s => !s.isEmpty

/-- The per-result source construction of `queryRAG` step 4: the deep-link
url gets a `#headingId` anchor when `headingId` is truthy, and the display
title is `` `${title} → ${heading}` `` when `heading` is truthy. -/
def sourceOf {K : Type _} (result : SearchResult K) : SourceEntry :=
  let metadata := result.chunk.metadata
  let url := if truthyStr metadata.headingId then
      metadata.url ++ '#' :: metadata.headingId.getD []
    else metadata.url
  { title := if truthyStr metadata.heading then
      metadata.title ++ " → ".data ++ metadata.heading.getD []
    else metadata.title
    url := url }

/-- `Array.from(new Map(sources.map(s => [s.url, s])).values())`: insert the
(url, source) pairs in order into a JS `Map`, then read the values back in
key-insertion order. -/
def dedupeByUrl (sources : List SourceEntry) : List SourceEntry :=
  ((sources.map fun s => (s.url, s)).foldl (fun m p => mapSet m p.1 p.2) []).map
    Prod.snd

/-- Steps 4–5 of `queryRAG`: build each result's source, then deduplicate. -/
def extractSources {K : Type _} (searchResults : List (SearchResult K)) :
    List SourceEntry :=
  dedupeByUrl (searchResults.map sourceOf)

/-- One step of collecting keys in first-occurrence order. -/
def firstOccurStep (acc : List Str) (k : Str) : List Str :=
  if acc.any (· == k) then acc else acc ++ [k]

/-- The distinct keys of a list in first-occurrence order (the key order of a
JS `Map` built from the list). -/
def firstOccur (ks : List Str) : List Str := ks.foldl firstOccurStep []

theorem mapSet_keys {β : Type _} (m : List (Str × β)) (k : Str) (v : β) :
    (mapSet m k v).map Prod.fst = firstOccurStep (m.map Prod.fst) k := by
  unfold mapSet firstOccurStep
  have hany : ((m.map Prod.fst).any fun x => x == k) = (m.any fun p => p.1 == k) := by
    induction m with
    | nil => rfl
    | cons p m ih => simp [List.any_cons, ih]
  cases ha : m.any (fun p => p.1 == k)
  · rw [if_neg (by simp [ha]), if_neg (by simp [hany, ha]), List.map_append]
    rfl
  · rw [if_pos (by simp [ha]), if_pos (by simp [hany, ha]), List.map_map]
    apply List.map_congr_left
    intro p hp
    show (if p.1 == k then (k, v) else p).1 = p.1
    cases hb : p.1 == k
    · rw [if_neg (by simp [hb])]
    · rw [if_pos (by simp [hb])]
      exact (by simpa using hb :).symm

theorem foldl_mapSet_keys {β : Type _} :
    ∀ (l : List (Str × β)) (m : List (Str × β)),
      ((l.foldl (fun m p => mapSet m p.1 p.2) m).map Prod.fst) =
        (l.map Prod.fst).foldl firstOccurStep (m.map Prod.fst)
  | [], m => rfl
  | p :: l, m => by
    rw [List.foldl_cons, List.map_cons, List.foldl_cons,
      foldl_mapSet_keys l (mapSet m p.1 p.2), mapSet_keys]

theorem foldl_firstOccurStep_nodup :
    ∀ (ks acc : List Str), acc.Nodup → (ks.foldl firstOccurStep acc).Nodup
  | [], _, h => h
  | k :: ks, acc, h => by
    rw [List.foldl_cons]
    apply foldl_firstOccurStep_nodup ks
    unfold firstOccurStep
    cases ha : acc.any (· == k)
    · rw [if_neg (by simp [ha])]
      refine List.Nodup.append h (List.nodup_singleton k) ?_
      intro a hacc hk
      rw [List.mem_singleton.mp hk] at hacc
      rw [List.any_eq_false] at ha
      exact absurd (by simp) (ha k hacc)
    · rw [if_pos (by simp [ha])]
      exact h

theorem mem_foldl_firstOccurStep :
    ∀ (ks acc : List Str) (k : Str), k ∈ acc ∨ k ∈ ks →
      k ∈ ks.foldl firstOccurStep acc
  | [], acc, k, h => by
    rcases h with h | h
    · exact h
    · cases h
  | k0 :: ks, acc, k, h => by
    rw [List.foldl_cons]
    apply mem_foldl_firstOccurStep ks
    unfold firstOccurStep
    rcases h with h | h
    · cases ha : acc.any (· == k0)
      · rw [if_neg (by simp [ha])]
        exact Or.inl (List.mem_append.mpr (Or.inl h))
      · rw [if_pos (by simp [ha])]
        exact Or.inl h
    · rcases List.mem_cons.mp h with rfl | h'
      · cases ha : acc.any (· == k)
        · rw [if_neg (by simp [ha])]
          exact Or.inl (List.mem_append.mpr (Or.inr (List.mem_singleton.mpr rfl)))
        · rw [if_pos (by simp [ha])]
          rw [List.any_eq_true] at ha
          obtain ⟨a, haacc, hab⟩ := ha
          exact Or.inl (by rwa [show a = k by simpa using hab] at haacc)
      · exact Or.inr h'

theorem mem_mapSet {β : Type _} (m : List (Str × β)) (k : Str) (v : β) :
    ∀ e ∈ mapSet m k v, e ∈ m ∨ e = (k, v) := by
  intro e he
  unfold mapSet at he
  split at he
  · obtain ⟨p, hp, hpe⟩ := List.mem_map.mp he
    by_cases hc : (p.1 == k) = true
    · rw [if_pos hc] at hpe
      exact Or.inr hpe.symm
    · rw [if_neg hc] at hpe
      exact Or.inl (hpe ▸ hp)
  · rcases List.mem_append.mp he with h | h
    · exact Or.inl h
    · exact Or.inr (List.mem_singleton.mp h)

theorem mem_foldl_mapSet {β : Type _} (P : Str → β → Prop) :
    ∀ (l m : List (Str × β)),
      (∀ e ∈ m, P e.1 e.2) → (∀ e ∈ l, P e.1 e.2) →
      ∀ e ∈ l.foldl (fun m p => mapSet m p.1 p.2) m, P e.1 e.2
  | [], m, hm, _, e, he => hm e he
  | p :: l, m, hm, hl, e, he => by
    rw [List.foldl_cons] at he
    refine mem_foldl_mapSet P l (mapSet m p.1 p.2) ?_
      (fun x hx => hl x (List.mem_cons_of_mem _ hx)) e he
    intro x hx
    rcases mem_mapSet m p.1 p.2 x hx with h | h
    · exact hm x h
    · rw [h]
      exact hl p (List.mem_cons_self _ _)

theorem mapGet_of_mem_nodup {β : Type _} :
    ∀ (M : List (Str × β)), (M.map Prod.fst).Nodup →
      ∀ e ∈ M, mapGet M e.1 = some e.2
  | [], _, e, he => absurd he (List.not_mem_nil e)
  | p :: M, hnd, e, he => by
    rw [List.map_cons, List.nodup_cons] at hnd
    rw [mapGet_cons]
    rcases List.mem_cons.mp he with rfl | he'
    · rw [if_pos (by simp)]
    · have hne : (p.1 == e.1) = false := by
        cases hb : p.1 == e.1
        · rfl
        · have : p.1 = e.1 := by simpa using hb
          exact absurd (this ▸ List.mem_map_of_mem Prod.fst he') hnd.1
      rw [if_neg (by simp [hne])]
      exact mapGet_of_mem_nodup M hnd.2 e he'

/-- The value stored under each key of the built JS `Map` is the one from the
LAST pair carrying that key. -/
theorem foldl_mapSet_get {β : Type _} :
    ∀ (l m : List (Str × β)) (u : Str),
      mapGet (l.foldl (fun m p => mapSet m p.1 p.2) m) u =
        (match l.reverse.find? (fun p => p.1 == u) with
          | some p => some p.2
          | none => mapGet m u)
  | [], m, u => rfl
  | p :: l, m, u => by
    rw [List.foldl_cons, foldl_mapSet_get l (mapSet m p.1 p.2) u,
      List.reverse_cons, List.find?_append]
    cases hfind : l.reverse.find? (fun p => p.1 == u)
    · cases hb : p.1 == u
      · have hne : u ≠ p.1 := fun h => by simp [h] at hb
        rw [mapGet_mapSet_ne m p.1 u p.2 hne]
        simp [List.find?_singleton, hb]
      · have heq : p.1 = u := by simpa using hb
        rw [← heq, mapGet_mapSet_self]
        simp [List.find?_singleton]
    · rfl

theorem find?_pair_map (sources : List SourceEntry) (u : Str) :
    ((sources.map fun t => (t.url, t)).find? fun p => p.1 == u) =
      (sources.find? fun t => t.url == u).map fun t => (t.url, t) := by
  induction sources with
  | nil => rfl
  | cons s rest ih =>
    simp only [List.map_cons, List.find?_cons]
    cases hb : s.url == u
    · exact ih
    · rfl

/-- Two search results (over ℚ) whose distinct headings share a slug anchor,
so both produce the deep-link URL `/d#setup` but different display titles. -/
def resX : SearchResult ℚ :=
  { chunk :=
      { id := "x".data, text := "x".data, embedding := [],
        metadata :=
          { sourceFile := "d.md".data, title := "T".data,
            heading := some "Setup!".data, headingId := some "setup".data,
            url := "/d".data, startLine := none, endLine := none,
            fileHash := none } },
    score := 0 }

def resY : SearchResult ℚ :=
  { chunk :=
      { id := "y".data, text := "y".data, embedding := [],
        metadata :=
          { sourceFile := "d.md".data, title := "T".data,
            heading := some "Setup?".data, headingId := some "setup".data,
            url := "/d".data, startLine := none, endLine := none,
            fileHash := none } },
    score := 0 }

set_option maxRecDepth 10000 in
/-- Counterexample to C9 as stated: with two results producing the same
deep-link URL but different display titles, the deduplicated sources list
keeps the SECOND result's entry, not the first occurrence's. -/
theorem C9_counterexample :
    (sourceOf resX).url = (sourceOf resY).url ∧
    sourceOf resX ≠ sourceOf resY ∧
    extractSources [resX, resY] = [sourceOf resY] ∧
    extractSources [resX, resY] ≠ [sourceOf resX] := by
  decide

/-- **C9** (amended): the sources list has at most one entry per distinct
deep-link URL, its entries stand in first-occurrence order of the URLs
(result order preserved), every result's URL is represented, the kept entry
for each URL is the one from the LAST result that produced it (last
occurrence wins for the value), and the display title is
`` `${title} → ${heading}` `` exactly when the chunk's heading is truthy. -/
theorem C9_amended_last_wins {K : Type _} (results : List (SearchResult K)) :
    ((extractSources results).map fun s => s.url).Nodup ∧
    ((extractSources results).map fun s => s.url) =
      firstOccur ((results.map sourceOf).map fun s => s.url) ∧
    (∀ r ∈ results, (sourceOf r).url ∈ (extractSources results).map fun s => s.url) ∧
    (∀ s ∈ extractSources results,
      ((results.map sourceOf).reverse.find? fun t => t.url == s.url) = some s) ∧
    (∀ r ∈ results, (sourceOf r).title =
      if truthyStr r.chunk.metadata.heading then
        r.chunk.metadata.title ++ " → ".data ++ r.chunk.metadata.heading.getD []
      else r.chunk.metadata.title) := by
  have hinv : ∀ e ∈ ((results.map sourceOf).map fun t => (t.url, t)).foldl
      (fun m p => mapSet m p.1 p.2) ([] : List (Str × SourceEntry)), e.2.url = e.1 := by
    refine mem_foldl_mapSet (fun k (v : SourceEntry) => v.url = k) _ [] ?_ ?_
    · intro e he
      cases he
    · intro e he
      obtain ⟨t, ht, het⟩ := List.mem_map.mp he
      rw [← het]
  have hkeys : ((((results.map sourceOf).map fun t => (t.url, t)).foldl
        (fun m p => mapSet m p.1 p.2) ([] : List (Str × SourceEntry))).map Prod.fst) =
      firstOccur ((results.map sourceOf).map fun t => t.url) := by
    rw [foldl_mapSet_keys]
    unfold firstOccur
    rw [List.map_map]
    rfl
  have hurl : (extractSources results).map (fun t => t.url) =
      ((((results.map sourceOf).map fun t => (t.url, t)).foldl
        (fun m p => mapSet m p.1 p.2) ([] : List (Str × SourceEntry))).map Prod.fst) := by
    show ((((results.map sourceOf).map fun t => (t.url, t)).foldl
        (fun m p => mapSet m p.1 p.2) []).map Prod.snd).map (fun t => t.url) = _
    rw [List.map_map]
    exact List.map_congr_left fun e he => hinv e he
  have hnd : (((((results.map sourceOf).map fun t => (t.url, t)).foldl
      (fun m p => mapSet m p.1 p.2) ([] : List (Str × SourceEntry)))).map Prod.fst).Nodup := by
    rw [hkeys]
    unfold firstOccur
    exact foldl_firstOccurStep_nodup _ [] List.nodup_nil
  refine ⟨?_, ?_, ?_, ?_, fun r hr => rfl⟩
  · rw [hurl]
    exact hnd
  · rw [hurl, hkeys]
  · intro r hr
    rw [hurl, hkeys]
    unfold firstOccur
    apply mem_foldl_firstOccurStep
    exact Or.inr (List.mem_map_of_mem _ (List.mem_map_of_mem sourceOf hr))
  · intro s hs
    obtain ⟨e, heM, hes⟩ := List.mem_map.mp hs
    have hkey : e.1 = s.url := by
      rw [← hes]
      exact (hinv e heM).symm
    have hget := mapGet_of_mem_nodup _ hnd e heM
    rw [hkey, hes, foldl_mapSet_get, ← List.map_reverse, find?_pair_map] at hget
    cases hfind : (results.map sourceOf).reverse.find? (fun t => t.url == s.url) with
    | none =>
      rw [hfind] at hget
      simp [mapGet_nil] at hget
    | some t =>
      rw [hfind] at hget
      have : t = s := by simpa using hget
      rw [this]

set_option maxRecDepth 10000 in
/-- Witness for the amended C9 at the concrete duplicated-URL results: the
kept entry is the LAST occurrence of its URL among the produced sources. -/
theorem C9_amended_witness :
    (([resX, resY].map sourceOf).reverse.find? fun t =>
        t.url == (sourceOf resY).url) = some (sourceOf resY) :=
  (C9_amended_last_wins [resX, resY]).2.2.2.1 (sourceOf resY) (by decide)

end Botdocs
